import Mathlib

/-!
# PaulTrip `RingBuffer`: a shallow embedding and its verification

The development embeds `src/paultrip/src/RingBuffer.cpp` (the jitter buffer, a circular
buffer of equally sized slots) and proves properties of it.

Modelling conventions.

* A C++ `int` is a Lean `Int`.  C++ `/` and `%` on `int` truncate towards zero, so they
  are `Int.tdiv` and `Int.tmod`.
* An `int` sum or product that can exceed `INT_MAX` although the sizes and the positions
  are those of a well-formed buffer wraps to 32 bits (`wrapInt`): the products of the
  constructor and the sums and products of the two resets.  The sums of the transfers
  and the updates of the slot counter cannot leave the range of `int` in a well-formed
  state and are exact.  `InRange` is the condition on the sizes under which nothing
  wraps.
* An `int8_t` array is a `List Int` (one entry per byte).  A pointer into an array is the
  list together with a `Nat` offset; an `int` used as an offset or as a byte count is
  converted with `Int.toNat`.
* The mutex is held for the whole body of every public method, so a method is an atomic
  state transformer.  A blocking method whose `while (...) wait` condition is true cannot
  complete in the current state; it is modelled by the result `none`.
* Console output (`cout`, `cerr`, `debugDump`) and the condition-variable wake-ups have
  no effect on the fields and are omitted.
-/

namespace RingBuffer

/-- The data members of `class RingBuffer` (the mutex and wait conditions apart). -/
structure State where
  mSlotSize : Int
  mNumSlots : Int
  mTotalSize : Int
  mReadPosition : Int
  mWritePosition : Int
  mFullSlots : Int
  mRingBuffer : List Int
  mLastReadSlot : List Int
deriving DecidableEq

/-- Model of `std::memcpy(dst + d, src + s, n)`: returns the new content of `dst`. -/
def memcpy (dst : List Int) (d : Nat) (src : List Int) (s : Nat) (n : Nat) : List Int :=
  dst.take d ++ (src.drop s).take n ++ dst.drop (d + n)

/-- Model of `std::memset(dst, c, n)`: returns the new content of `dst`. -/
def memset (dst : List Int) (c : Int) (n : Nat) : List Int :=
  List.replicate n c ++ dst.drop n

/-- The largest value of a 32-bit `int`. -/
def intMax : Int := 2147483647

/-- Result of an `int` sum or product whose exact value is `x`: the value is kept when
it is representable and wraps modulo `2^32` into `[-2^31, 2^31)` when it is not, as on
the two's-complement targets the program is built for. -/
def wrapInt (x : Int) : Int := (x + 2147483648) % 4294967296 - 2147483648

/-- Constructor `RingBuffer::RingBuffer(int SlotSize, int NumSlots)`: both arrays are
allocated and zeroed, then the write position and the slot count are moved to the middle.
The products `mSlotSize*mNumSlots` and `(NumSlots/2)*SlotSize` are `int` products. -/
def RingBuffer (SlotSize NumSlots : Int) : State :=
  { mSlotSize := SlotSize
    mNumSlots := NumSlots
    mTotalSize := wrapInt (SlotSize * NumSlots)
    mReadPosition := 0
    mWritePosition :=
      Int.tmod (wrapInt (Int.tdiv NumSlots 2 * SlotSize)) (wrapInt (SlotSize * NumSlots))
    mFullSlots := Int.tdiv NumSlots 2
    mRingBuffer := List.replicate (wrapInt (SlotSize * NumSlots)).toNat 0
    mLastReadSlot := List.replicate SlotSize.toNat 0 }

/-- Method `RingBuffer::underrunReset()`; the product and the sum are `int` operations. -/
def underrunReset (rb : State) : State :=
  { rb with
    mWritePosition :=
      Int.tmod (wrapInt (rb.mWritePosition + wrapInt (Int.tdiv rb.mNumSlots 2 * rb.mSlotSize)))
        rb.mTotalSize
    mFullSlots := rb.mFullSlots + Int.tdiv rb.mNumSlots 2
    mRingBuffer := memset rb.mRingBuffer 0 rb.mTotalSize.toNat }

/-- Method `RingBuffer::overflowReset()`; the product and the sum are `int` operations. -/
def overflowReset (rb : State) : State :=
  { rb with
    mReadPosition :=
      Int.tmod (wrapInt (rb.mReadPosition + wrapInt (Int.tdiv rb.mNumSlots 2 * rb.mSlotSize)))
        rb.mTotalSize
    mFullSlots := rb.mFullSlots - Int.tdiv rb.mNumSlots 2 }

/-- The statements of the insert methods after the full-buffer test: copy the slot to the
write position, advance the write position, count one more full slot. -/
def insertSlot (rb : State) (ptrToSlot : List Int) : State :=
  { rb with
    mRingBuffer :=
      memcpy rb.mRingBuffer rb.mWritePosition.toNat ptrToSlot 0 rb.mSlotSize.toNat
    mWritePosition := Int.tmod (rb.mWritePosition + rb.mSlotSize) rb.mTotalSize
    mFullSlots := rb.mFullSlots + 1 }

/-- The statements of the read methods after the empty-buffer test: copy the slot at the
read position to the caller, advance the read position, count one full slot less.  The
second component is the new content of the caller's buffer. -/
def readSlot (rb : State) (ptrToReadSlot : List Int) : State × List Int :=
  ({ rb with
      mReadPosition := Int.tmod (rb.mReadPosition + rb.mSlotSize) rb.mTotalSize
      mFullSlots := rb.mFullSlots - 1 },
    memcpy ptrToReadSlot 0 rb.mRingBuffer rb.mReadPosition.toNat rb.mSlotSize.toNat)

/-- Method `RingBuffer::insertSlotBlocking(const int8_t* ptrToSlot)`; `none` when the
method has to wait (`mFullSlots == mNumSlots`). -/
def insertSlotBlocking (rb : State) (ptrToSlot : List Int) : Option State :=
  if rb.mFullSlots = rb.mNumSlots then none else some (insertSlot rb ptrToSlot)

/-- Method `RingBuffer::readSlotBlocking(int8_t* ptrToReadSlot)`; `none` when the method
has to wait (`mFullSlots == 0`). -/
def readSlotBlocking (rb : State) (ptrToReadSlot : List Int) : Option (State × List Int) :=
  if rb.mFullSlots = 0 then none else some (readSlot rb ptrToReadSlot)

/-- Method `RingBuffer::insertSlotNonBlocking(const int8_t* ptrToSlot)`. -/
def insertSlotNonBlocking (rb : State) (ptrToSlot : List Int) : State :=
  if rb.mFullSlots = rb.mNumSlots then overflowReset rb else insertSlot rb ptrToSlot

/-- Method `RingBuffer::readSlotNonBlocking(int8_t* ptrToReadSlot)`; the second component
is the content of the caller's buffer after the call. -/
def readSlotNonBlocking (rb : State) (ptrToReadSlot : List Int) : State × List Int :=
  if rb.mFullSlots = 0 then (underrunReset rb, ptrToReadSlot) else readSlot rb ptrToReadSlot

/-! ## Reachable states -/

/-- One completed call of a public method.  A blocking call completes only when it does
not have to wait; an inserted slot points to at least `mSlotSize` readable bytes, as
`memcpy` requires. -/
inductive Step : State → State → Prop
  | insertBlocking (rb : State) (ptrToSlot : List Int) (rb' : State) :
      rb.mSlotSize.toNat ≤ ptrToSlot.length →
      insertSlotBlocking rb ptrToSlot = some rb' → Step rb rb'
  | readBlocking (rb : State) (ptrToReadSlot : List Int) (rb' : State) (out : List Int) :
      readSlotBlocking rb ptrToReadSlot = some (rb', out) → Step rb rb'
  | insertNonBlocking (rb : State) (ptrToSlot : List Int) :
      rb.mSlotSize.toNat ≤ ptrToSlot.length → Step rb (insertSlotNonBlocking rb ptrToSlot)
  | readNonBlocking (rb : State) (ptrToReadSlot : List Int) :
      Step rb (readSlotNonBlocking rb ptrToReadSlot).1

/-- The states reachable from `RingBuffer(SlotSize, NumSlots)` by completed calls. -/
inductive Reachable (SlotSize NumSlots : Int) : State → Prop
  | init : Reachable SlotSize NumSlots (RingBuffer SlotSize NumSlots)
  | step {rb rb' : State} :
      Reachable SlotSize NumSlots rb → Step rb rb' → Reachable SlotSize NumSlots rb'

/-- The class invariant: sizes are positive, the positions are slot-aligned offsets into
the storage, the slot count is within the capacity and the write position is the read
position advanced by the full slots. -/
def Valid (rb : State) : Prop :=
  1 ≤ rb.mSlotSize ∧ 1 ≤ rb.mNumSlots ∧ rb.mTotalSize = rb.mSlotSize * rb.mNumSlots ∧
  0 ≤ rb.mReadPosition ∧ rb.mReadPosition < rb.mTotalSize ∧
  rb.mReadPosition % rb.mSlotSize = 0 ∧
  0 ≤ rb.mFullSlots ∧ rb.mFullSlots ≤ rb.mNumSlots ∧
  rb.mWritePosition = (rb.mReadPosition + rb.mFullSlots * rb.mSlotSize) % rb.mTotalSize ∧
  rb.mRingBuffer.length = rb.mTotalSize.toNat

instance (rb : State) : Decidable (Valid rb) := by
  unfold Valid; infer_instance

/-- A state given by natural numbers: slot size `s`, capacity `n`, read slot index `r`,
number of full slots `f`; the write position is determined by them. -/
def mk (s n r f : Nat) (buf last : List Int) : State :=
  { mSlotSize := s
    mNumSlots := n
    mTotalSize := (s * n : Nat)
    mReadPosition := (r * s : Nat)
    mWritePosition := ((r + f) % n * s : Nat)
    mFullSlots := f
    mRingBuffer := buf
    mLastReadSlot := last }

/-! ## The range of `int` -/

/-- The storage size fits in an `int`: the condition under which the constructor's
products do not wrap. -/
def TotalFits (SlotSize NumSlots : Int) : Prop := SlotSize * NumSlots ≤ intMax

instance (SlotSize NumSlots : Int) : Decidable (TotalFits SlotSize NumSlots) := by
  unfold TotalFits; infer_instance

/-- No `int` computation of the buffer wraps: the storage size fits in an `int`, and so
does the largest sum a reset can form, the last slot's offset `(NumSlots-1)*SlotSize`
advanced by half the buffer, `(NumSlots/2)*SlotSize`. -/
def InRange (SlotSize NumSlots : Int) : Prop :=
  SlotSize * NumSlots ≤ intMax ∧ (NumSlots - 1 + NumSlots / 2) * SlotSize ≤ intMax

instance (SlotSize NumSlots : Int) : Decidable (InRange SlotSize NumSlots) := by
  unfold InRange; infer_instance

/-- The `int` results that the model computes exactly, on the branch the method takes in
state `rb`: the half capacity, the advanced positions of a transfer and the new slot
counter of an insert (a resync when full) and of a read (a resync when empty). -/
def exactInts (rb : State) : List Int :=
  [ Int.tdiv rb.mNumSlots 2,
    rb.mWritePosition + rb.mSlotSize,
    rb.mReadPosition + rb.mSlotSize,
    if rb.mFullSlots = rb.mNumSlots then rb.mFullSlots - Int.tdiv rb.mNumSlots 2
    else rb.mFullSlots + 1,
    if rb.mFullSlots = 0 then rb.mFullSlots + Int.tdiv rb.mNumSlots 2
    else rb.mFullSlots - 1 ]

/-- The `int` results that the model wraps: the products of the constructor and of the
resets, and the sums of the two resets. -/
def wrappedInts (rb : State) : List Int :=
  [ rb.mSlotSize * rb.mNumSlots,
    Int.tdiv rb.mNumSlots 2 * rb.mSlotSize,
    rb.mWritePosition + Int.tdiv rb.mNumSlots 2 * rb.mSlotSize,
    rb.mReadPosition + Int.tdiv rb.mNumSlots 2 * rb.mSlotSize ]

/-! ## A buffer whose offsets leave the range of `int` -/

/-- A slot of 500000000 bytes. -/
def bigSlot : List Int := List.replicate 500000000 7

/-- An empty state of `RingBuffer(500000000, 4)`, whose 2000000000 bytes of storage fit
in an `int`: two reads, one insert and one read after construction leave the read and
the write position at the last slot, offset 1500000000. -/
def bigEmpty : State :=
  (readSlotNonBlocking (insertSlotNonBlocking (readSlotNonBlocking
    (readSlotNonBlocking (RingBuffer 500000000 4) []).1 []).1 bigSlot) []).1

/-- The state of `RingBuffer(500000000, 4)` after the underrun resync of a non-blocking
read in `bigEmpty`: the sum `1500000000 + 1000000000` has wrapped. -/
def bigResynced : State := (readSlotNonBlocking bigEmpty []).1

/-- A full state of `RingBuffer(500000000, 4)`: four inserts after `bigEmpty`, read and
write position at offset 1500000000. -/
def bigFull : State :=
  insertSlotNonBlocking (insertSlotNonBlocking (insertSlotNonBlocking
    (insertSlotNonBlocking bigEmpty bigSlot) bigSlot) bigSlot) bigSlot

/-- The state of `RingBuffer(500000000, 4)` after the overflow resync of a non-blocking
insert in `bigFull`: two slots pending, and the sum `1500000000 + 1000000000` has
wrapped. -/
def bigHalved : State := insertSlotNonBlocking bigFull bigSlot

/-- An empty state of `RingBuffer(500000000, 4)` after the wrapped underrun resync: the
two reads that follow `bigResynced`. -/
def bigStale : State := (readSlotNonBlocking (readSlotNonBlocking bigResynced []).1 []).1

/-- The slot stored at byte offset `p`: `mSlotSize` bytes of the storage from `p` on. -/
def slotAt (rb : State) (p : Nat) : List Int :=
  (rb.mRingBuffer.drop p).take rb.mSlotSize.toNat

/-- The pending slots in read order: the `mFullSlots` slots that start at the read
position, wrapping at the end of the storage. -/
def pending (rb : State) : List (List Int) :=
  (List.range rb.mFullSlots.toNat).map fun j =>
    slotAt rb ((rb.mReadPosition.toNat + j * rb.mSlotSize.toNat) % rb.mTotalSize.toNat)

/-- A slot of silence: `s` zero bytes. -/
def silence (s : Nat) : List Int := List.replicate s 0

/-- The queue of a canonical state: the `f` slots from slot index `r` on, wrapping. -/
def queueOf (s n r f : Nat) (buf : List Int) : List (List Int) :=
  (List.range f).map fun j => (buf.drop ((r + j) % n * s)).take s

/-- The call `insertSlotBlocking(S)` followed immediately by `readSlotBlocking(out)`:
the content of the caller's buffer `out` after the two calls, `none` when one of them
has to wait. -/
def insertThenRead (rb : State) (S out : List Int) : Option (List Int) :=
  match insertSlotBlocking rb S with
  | none => none
  | some rb' => (readSlotBlocking rb' out).map Prod.snd

/-! ## Runs without waiting and without resync -/

/-- A call of one of the four public methods, with its argument. -/
inductive Call where
  | insertBlocking (ptrToSlot : List Int)
  | readBlocking (ptrToReadSlot : List Int)
  | insertNonBlocking (ptrToSlot : List Int)
  | readNonBlocking (ptrToReadSlot : List Int)
deriving DecidableEq

/-- A successful transfer: the call completes without waiting and without a resync.
The result is the new state and, for a read, the slot delivered to the caller (the first
`mSlotSize` bytes of the caller's buffer after the call). -/
def transfer (rb : State) : Call → Option (State × Option (List Int))
  | Call.insertBlocking S => (insertSlotBlocking rb S).map fun rb' => (rb', none)
  | Call.readBlocking out =>
      (readSlotBlocking rb out).map fun p => (p.1, some (p.2.take rb.mSlotSize.toNat))
  | Call.insertNonBlocking S =>
      if rb.mFullSlots = rb.mNumSlots then none else some (insertSlotNonBlocking rb S, none)
  | Call.readNonBlocking out =>
      if rb.mFullSlots = 0 then none
      else some ((readSlotNonBlocking rb out).1,
        some ((readSlotNonBlocking rb out).2.take rb.mSlotSize.toNat))

/-- A run of successful transfers: the final state and the slots delivered by the reads,
in order; `none` as soon as one call would wait or resync. -/
def run (rb : State) : List Call → Option (State × List (List Int))
  | [] => some (rb, [])
  | c :: cs =>
    match transfer rb c with
    | none => none
    | some (rb', o) =>
      match run rb' cs with
      | none => none
      | some (rb'', outs) => some (rb'', o.toList ++ outs)

/-- The slots handed to the insert calls of a run, in order (`s` bytes each). -/
def inserted (s : Nat) : List Call → List (List Int)
  | [] => []
  | Call.insertBlocking S :: cs => S.take s :: inserted s cs
  | Call.insertNonBlocking S :: cs => S.take s :: inserted s cs
  | _ :: cs => inserted s cs

/-- Whether every slot handed to an insert call has at least `s` bytes. -/
def slotsOk (s : Nat) : List Call → Prop
  | [] => True
  | Call.insertBlocking S :: cs => s ≤ S.length ∧ slotsOk s cs
  | Call.insertNonBlocking S :: cs => s ≤ S.length ∧ slotsOk s cs
  | _ :: cs => slotsOk s cs

instance slotsOkDecidable (s : Nat) : (cs : List Call) → Decidable (slotsOk s cs)
  | [] => isTrue trivial
  | Call.insertBlocking S :: cs =>
    have := slotsOkDecidable s cs
    (inferInstance : Decidable (s ≤ S.length ∧ slotsOk s cs))
  | Call.insertNonBlocking S :: cs =>
    have := slotsOkDecidable s cs
    (inferInstance : Decidable (s ≤ S.length ∧ slotsOk s cs))
  | Call.readBlocking _ :: cs => slotsOkDecidable s cs
  | Call.readNonBlocking _ :: cs => slotsOkDecidable s cs

/-- Whether a call is a read, blocking or non-blocking. -/
def Call.isRead : Call → Bool
  | Call.readBlocking _ => true
  | Call.readNonBlocking _ => true
  | _ => false

/-! ## The queue with provenance -/

/-- Bytes of a queue entry: `none` is a slot of silence made by the constructor or by an
underrun resync, `some S` is a slot handed to an insert call. -/
def entryBytes (s : Nat) : Option (List Int) → List Int
  | none => silence s
  | some S => S.take s

/-- The earliest inserted slot among the pending entries, if there is one. -/
def earliestInserted : List (Option (List Int)) → Option (List Int)
  | [] => none
  | some S :: _ => some S
  | none :: q => earliestInserted q

/-- Reachable states together with the history of their pending slots, oldest first:
the constructor and an underrun resync queue `NumSlots/2` slots of silence, a successful
insert queues its slot at the back, a successful read takes the entry at the front and an
overflow resync discards the `NumSlots/2` entries at the front. -/
inductive Traced (SlotSize NumSlots : Int) : State → List (Option (List Int)) → Prop
  | init :
      Traced SlotSize NumSlots (RingBuffer SlotSize NumSlots)
        (List.replicate (NumSlots / 2).toNat none)
  | insertBlocking {rb rb' : State} {q : List (Option (List Int))} (S : List Int) :
      Traced SlotSize NumSlots rb q → rb.mSlotSize.toNat ≤ S.length →
      insertSlotBlocking rb S = some rb' →
      Traced SlotSize NumSlots rb' (q ++ [some (S.take rb.mSlotSize.toNat)])
  | readBlocking {rb rb' : State} {q : List (Option (List Int))} (out out' : List Int) :
      Traced SlotSize NumSlots rb q → readSlotBlocking rb out = some (rb', out') →
      Traced SlotSize NumSlots rb' q.tail
  | insertNonBlocking {rb : State} {q : List (Option (List Int))} (S : List Int) :
      Traced SlotSize NumSlots rb q → rb.mSlotSize.toNat ≤ S.length →
      Traced SlotSize NumSlots (insertSlotNonBlocking rb S)
        (if rb.mFullSlots = rb.mNumSlots then q.drop (NumSlots / 2).toNat
         else q ++ [some (S.take rb.mSlotSize.toNat)])
  | readNonBlocking {rb : State} {q : List (Option (List Int))} (out : List Int) :
      Traced SlotSize NumSlots rb q →
      Traced SlotSize NumSlots (readSlotNonBlocking rb out).1
        (if rb.mFullSlots = 0 then List.replicate (NumSlots / 2).toNat none else q.tail)

/-! ## Arithmetic of offsets and the canonical form of valid states -/

theorem tmod_cast (a b : Nat) : Int.tmod (a : Int) (b : Int) = ((a % b : Nat) : Int) := by
  rw [Int.tmod_eq_emod (Int.ofNat_nonneg a) (Int.ofNat_nonneg b)]
  push_cast
  rfl

theorem tdiv_cast (a b : Nat) : Int.tdiv (a : Int) (b : Int) = ((a / b : Nat) : Int) := by
  rw [Int.tdiv_eq_ediv (Int.ofNat_nonneg a) (Int.ofNat_nonneg b)]
  push_cast
  rfl

theorem scale_mod (a s n : Nat) : a * s % (s * n) = a % n * s := by
  rw [Nat.mul_comm s n]
  exact Nat.mul_mod_mul_right s a n

theorem Valid.exists_mk {rb : State} (h : Valid rb) :
    ∃ s n r f : Nat, 1 ≤ s ∧ 1 ≤ n ∧ r < n ∧ f ≤ n ∧ rb.mRingBuffer.length = s * n ∧
      rb = mk s n r f rb.mRingBuffer rb.mLastReadSlot := by
  obtain ⟨hs, hn, hT, hr0, hrT, hrs, hf0, hfn, hw, hlen⟩ := h
  obtain ⟨s, hs'⟩ := Int.eq_ofNat_of_zero_le (by omega : 0 ≤ rb.mSlotSize)
  obtain ⟨n, hn'⟩ := Int.eq_ofNat_of_zero_le (by omega : 0 ≤ rb.mNumSlots)
  obtain ⟨f, hf'⟩ := Int.eq_ofNat_of_zero_le hf0
  obtain ⟨p, hp'⟩ := Int.eq_ofNat_of_zero_le hr0
  have hdvd : (s : Int) ∣ (p : Int) := by
    rw [← hs', ← hp']; exact Int.dvd_of_emod_eq_zero hrs
  have hdvd' : s ∣ p := Int.natCast_dvd_natCast.mp hdvd
  obtain ⟨r, hr⟩ := hdvd'
  have hs1 : 1 ≤ s := by omega
  have hn1 : 1 ≤ n := by omega
  have hrn : r < n := by
    have : (p : Int) < (s : Int) * (n : Int) := by rw [← hp', ← hs', ← hn', ← hT]; exact hrT
    have h2 : p < s * n := by exact_mod_cast this
    rw [hr] at h2
    exact Nat.lt_of_mul_lt_mul_left h2
  refine ⟨s, n, r, f, hs1, hn1, hrn, by omega, ?_, ?_⟩
  · rw [hlen, hT, hs', hn']; norm_cast
  · cases rb
    simp only [mk] at *
    subst hs' hn' hf' hT
    simp only [State.mk.injEq, true_and, and_true]
    refine ⟨by push_cast; ring, by rw [hp', hr]; push_cast; ring, ?_⟩
    rw [hw, hp', hr]
    have : ((s * r : Nat) : Int) + (f : Int) * (s : Int) = (((r + f) * s : Nat) : Int) := by
      push_cast; ring
    rw [this]
    have h3 : ((s : Int) * (n : Int)) = ((s * n : Nat) : Int) := by push_cast; ring
    rw [h3]
    norm_cast
    exact scale_mod _ _ _


theorem valid_mk {s n r f : Nat} (buf last : List Int) (hs : 1 ≤ s) (hn : 1 ≤ n)
    (hr : r < n) (hf : f ≤ n) (hlen : buf.length = s * n) : Valid (mk s n r f buf last) := by
  have hrs : r * s < s * n := by
    rw [Nat.mul_comm s n]; exact Nat.mul_lt_mul_of_pos_right hr (by omega)
  refine ⟨by simp [mk]; omega, by simp [mk]; omega, by simp [mk], by simp [mk]; positivity,
    by simp only [mk]; exact_mod_cast hrs, by simp [mk], by simp [mk],
    by simp only [mk]; exact_mod_cast hf, ?_, by simp only [mk, hlen, Int.toNat_ofNat]⟩
  simp only [mk]
  have : ((r * s : Nat) : Int) + (f : Int) * (s : Int) = (((r + f) * s : Nat) : Int) := by
    push_cast; ring
  rw [this]
  norm_cast
  exact (scale_mod _ _ _).symm

theorem wrapInt_cast (x : Nat) (hx : x ≤ 2147483647) : wrapInt (x : Int) = (x : Int) := by
  unfold wrapInt
  omega

theorem inRange_cast {s n : Nat} (hn : 1 ≤ n) (h : InRange (s : Int) (n : Int)) :
    s * n ≤ 2147483647 ∧ (n - 1 + n / 2) * s ≤ 2147483647 := by
  obtain ⟨h1, h2⟩ := h
  unfold intMax at h1 h2
  have e : ((n : Int) - 1 + (n : Int) / 2) = ((n - 1 + n / 2 : Nat) : Int) := by omega
  rw [e] at h2
  exact ⟨by exact_mod_cast h1, by exact_mod_cast h2⟩

theorem reset_sum_le {s n r : Nat} (hr : r < n) (hfit : (n - 1 + n / 2) * s ≤ 2147483647) :
    n / 2 * s ≤ 2147483647 ∧ (r + n / 2) * s ≤ 2147483647 := by
  have h1 : (r + n / 2) * s ≤ (n - 1 + n / 2) * s := Nat.mul_le_mul_right s (by omega)
  have h2 : n / 2 * s ≤ (r + n / 2) * s := Nat.mul_le_mul_right s (by omega)
  omega

theorem ctor_eq_mk (s n : Nat) (hT : s * n ≤ 2147483647) :
    RingBuffer (s : Int) (n : Int) =
      mk s n 0 (n / 2) (List.replicate (s * n) 0) (List.replicate s 0) := by
  have h2 : Int.tdiv (n : Int) 2 = ((n / 2 : Nat) : Int) := tdiv_cast n 2
  have h3 : ((s : Int) * (n : Int)) = ((s * n : Nat) : Int) := by push_cast; ring
  have h4 : ((n / 2 : Nat) : Int) * (s : Int) = ((n / 2 * s : Nat) : Int) := by push_cast; ring
  have h5 : n / 2 * s ≤ s * n := by
    rw [Nat.mul_comm s n]; exact Nat.mul_le_mul_right s (Nat.div_le_self n 2)
  simp only [RingBuffer, mk, h2, h3, h4, wrapInt_cast _ hT, wrapInt_cast _ (h5.trans hT)]
  rw [tmod_cast, scale_mod]
  simp only [Int.toNat_ofNat, Nat.zero_add, Nat.zero_mul, Nat.cast_zero]

theorem insertSlot_mk (s n r f : Nat) (buf last S : List Int) :
    insertSlot (mk s n r f buf last) S =
      mk s n r (f + 1) (memcpy buf ((r + f) % n * s) S 0 s) last := by
  simp only [insertSlot, mk, Int.toNat_ofNat]
  have h1 : (((r + f) % n * s : Nat) : Int) + (s : Int) = ((((r + f) % n + 1) * s : Nat) : Int) := by
    push_cast; ring
  rw [h1, tmod_cast, scale_mod]
  have h2 : ((r + f) % n + 1) % n = (r + (f + 1)) % n := by
    rw [← Nat.add_assoc, Nat.add_mod (r + f) 1 n, Nat.add_mod ((r + f) % n) 1 n, Nat.mod_mod]
  rw [h2]
  simp

theorem readSlot_mk (s n r f : Nat) (buf last out : List Int) (hf : 1 ≤ f) :
    readSlot (mk s n r f buf last) out =
      (mk s n ((r + 1) % n) (f - 1) buf last, memcpy out 0 buf (r * s) s) := by
  simp only [readSlot, mk, Int.toNat_ofNat]
  have h1 : ((r * s : Nat) : Int) + (s : Int) = (((r + 1) * s : Nat) : Int) := by
    push_cast; ring
  rw [h1, tmod_cast, scale_mod]
  have h2 : ((r + 1) % n + (f - 1)) % n = (r + f) % n := by
    rw [Nat.add_mod, Nat.mod_mod, ← Nat.add_mod]
    congr 1; omega
  rw [h2]
  have h3 : ((f : Int) - 1) = ((f - 1 : Nat) : Int) := by omega
  rw [h3]

theorem overflowReset_mk (s n r : Nat) (buf last : List Int) (hr : r < n)
    (hfit : (n - 1 + n / 2) * s ≤ 2147483647) :
    overflowReset (mk s n r n buf last) =
      mk s n ((r + n / 2) % n) (n - n / 2) buf last := by
  obtain ⟨hb1, hb2⟩ := reset_sum_le hr hfit
  simp only [overflowReset, mk]
  rw [show ((2 : Int)) = ((2 : Nat) : Int) from rfl, tdiv_cast]
  have h0 : ((n / 2 : Nat) : Int) * (s : Int) = ((n / 2 * s : Nat) : Int) := by push_cast; ring
  have h1 : ((r * s : Nat) : Int) + ((n / 2 * s : Nat) : Int)
      = (((r + n / 2) * s : Nat) : Int) := by
    push_cast; ring
  rw [h0, wrapInt_cast _ hb1, h1, wrapInt_cast _ hb2, tmod_cast, scale_mod]
  have h2 : ((r + n / 2) % n + (n - n / 2)) % n = (r + n) % n := by
    rw [Nat.add_mod, Nat.mod_mod, ← Nat.add_mod]
    congr 1; omega
  rw [h2]
  have h3 : ((n : Int) - ((n / 2 : Nat) : Int)) = ((n - n / 2 : Nat) : Int) := by omega
  rw [h3]

theorem underrunReset_mk (s n r : Nat) (buf last : List Int) (hr : r < n)
    (hfit : (n - 1 + n / 2) * s ≤ 2147483647) :
    underrunReset (mk s n r 0 buf last) =
      mk s n r (n / 2) (memset buf 0 (s * n)) last := by
  obtain ⟨hb1, hb2⟩ := reset_sum_le hr hfit
  simp only [underrunReset, mk, Int.toNat_ofNat]
  rw [show ((2 : Int)) = ((2 : Nat) : Int) from rfl, tdiv_cast]
  have h0 : ((n / 2 : Nat) : Int) * (s : Int) = ((n / 2 * s : Nat) : Int) := by push_cast; ring
  have hr0 : (r + 0) % n = r := by rw [Nat.add_zero, Nat.mod_eq_of_lt hr]
  have h1 : ((r * s : Nat) : Int) + ((n / 2 * s : Nat) : Int)
      = (((r + n / 2) * s : Nat) : Int) := by
    push_cast; ring
  rw [hr0, h0, wrapInt_cast _ hb1, h1, wrapInt_cast _ hb2, tmod_cast, scale_mod]
  simp

theorem memcpy_length (dst src : List Int) (d s n : Nat) (h1 : d + n ≤ dst.length)
    (h2 : s + n ≤ src.length) : (memcpy dst d src s n).length = dst.length := by
  simp only [memcpy, List.length_append, List.length_take, List.length_drop]
  omega

theorem slot_bound {s n w : Nat} (hw : w < n) : w * s + s ≤ s * n := by
  have h : (w + 1) * s ≤ n * s := Nat.mul_le_mul_right s hw
  rw [Nat.mul_comm s n]
  rw [Nat.add_mul, Nat.one_mul] at h
  exact h

theorem insertSlot_valid {rb : State} (h : Valid rb) (S : List Int)
    (hS : rb.mSlotSize.toNat ≤ S.length) (hne : rb.mFullSlots ≠ rb.mNumSlots) :
    Valid (insertSlot rb S) := by
  obtain ⟨s, n, r, f, hs, hn, hr, hf, hlen, e⟩ := h.exists_mk
  rw [e] at hS hne ⊢
  simp only [mk, Int.toNat_ofNat] at hS hne
  have hfn : f < n := by
    rcases Nat.lt_or_ge f n with h1 | h1
    · exact h1
    · exact absurd (by rw [Nat.le_antisymm hf h1]) hne
  rw [insertSlot_mk]
  refine valid_mk _ _ hs hn hr hfn ?_
  rw [memcpy_length _ _ _ _ _ _ (by simpa using hS), hlen]
  rw [hlen]
  exact slot_bound (Nat.mod_lt _ (by omega))

theorem readSlot_valid {rb : State} (h : Valid rb) (out : List Int)
    (hne : rb.mFullSlots ≠ 0) : Valid (readSlot rb out).1 := by
  obtain ⟨s, n, r, f, hs, hn, hr, hf, hlen, e⟩ := h.exists_mk
  rw [e] at hne ⊢
  simp only [mk] at hne
  have hf1 : 1 ≤ f := by
    rcases Nat.eq_zero_or_pos f with h1 | h1
    · exact absurd (by rw [h1]; rfl) hne
    · exact h1
  rw [readSlot_mk _ _ _ _ _ _ _ hf1]
  exact valid_mk _ _ hs hn (Nat.mod_lt _ (by omega)) (by omega) hlen

theorem memset_length (dst : List Int) (c : Int) (n : Nat) (h : n ≤ dst.length) :
    (memset dst c n).length = dst.length := by
  simp only [memset, List.length_append, List.length_replicate, List.length_drop]
  omega

theorem overflowReset_valid {rb : State} (h : Valid rb)
    (hfit : InRange rb.mSlotSize rb.mNumSlots)
    (hfull : rb.mFullSlots = rb.mNumSlots) : Valid (overflowReset rb) := by
  obtain ⟨s, n, r, f, hs, hn, hr, hf, hlen, e⟩ := h.exists_mk
  rw [e] at hfull hfit ⊢
  simp only [mk] at hfull hfit
  have hfn : f = n := by exact_mod_cast hfull
  subst hfn
  rw [overflowReset_mk _ _ _ _ _ hr (inRange_cast hn hfit).2]
  exact valid_mk _ _ hs hn (Nat.mod_lt _ (by omega)) (by omega) hlen

theorem underrunReset_valid {rb : State} (h : Valid rb)
    (hfit : InRange rb.mSlotSize rb.mNumSlots)
    (hempty : rb.mFullSlots = 0) : Valid (underrunReset rb) := by
  obtain ⟨s, n, r, f, hs, hn, hr, hf, hlen, e⟩ := h.exists_mk
  rw [e] at hempty hfit ⊢
  simp only [mk] at hempty hfit
  have hf0 : f = 0 := by exact_mod_cast hempty
  subst hf0
  rw [underrunReset_mk _ _ _ _ _ hr (inRange_cast hn hfit).2]
  refine valid_mk _ _ hs hn hr (by omega) ?_
  rw [memset_length _ _ _ (by omega), hlen]

theorem ctor_valid {SlotSize NumSlots : Int} (hs : 1 ≤ SlotSize) (hn : 1 ≤ NumSlots)
    (hfit : TotalFits SlotSize NumSlots) : Valid (RingBuffer SlotSize NumSlots) := by
  obtain ⟨s, rfl⟩ := Int.eq_ofNat_of_zero_le (by omega : 0 ≤ SlotSize)
  obtain ⟨n, rfl⟩ := Int.eq_ofNat_of_zero_le (by omega : 0 ≤ NumSlots)
  have hT : s * n ≤ 2147483647 := by
    unfold TotalFits intMax at hfit
    exact_mod_cast hfit
  rw [ctor_eq_mk _ _ hT]
  exact valid_mk _ _ (by omega) (by omega) (by omega) (by omega) (by simp)

theorem step_valid {rb rb' : State} (h : Valid rb)
    (hfit : InRange rb.mSlotSize rb.mNumSlots) (st : Step rb rb') : Valid rb' := by
  cases st with
  | insertBlocking S _ hS e =>
    unfold insertSlotBlocking at e
    split at e
    · exact absurd e (by simp)
    · rename_i hne
      cases e
      exact insertSlot_valid h S hS hne
  | readBlocking out _ out' e =>
    unfold readSlotBlocking at e
    split at e
    · exact absurd e (by simp)
    · rename_i hne
      cases e
      exact readSlot_valid h out hne
  | insertNonBlocking S hS =>
    unfold insertSlotNonBlocking
    split
    · rename_i hfull
      exact overflowReset_valid h hfit hfull
    · rename_i hne
      exact insertSlot_valid h S hS hne
  | readNonBlocking out =>
    unfold readSlotNonBlocking
    split
    · rename_i hempty
      exact underrunReset_valid h hfit hempty
    · rename_i hne
      exact readSlot_valid h out hne

/-! ## The sizes never change -/

theorem step_sizes {rb rb' : State} (st : Step rb rb') :
    rb'.mSlotSize = rb.mSlotSize ∧ rb'.mNumSlots = rb.mNumSlots ∧
      rb'.mTotalSize = rb.mTotalSize := by
  cases st with
  | insertBlocking S _ hS e =>
    unfold insertSlotBlocking at e
    split at e
    · exact absurd e (by simp)
    · cases e
      exact ⟨rfl, rfl, rfl⟩
  | readBlocking out _ out' e =>
    unfold readSlotBlocking at e
    split at e
    · exact absurd e (by simp)
    · cases e
      exact ⟨rfl, rfl, rfl⟩
  | insertNonBlocking S hS =>
    unfold insertSlotNonBlocking
    split <;> exact ⟨rfl, rfl, rfl⟩
  | readNonBlocking out =>
    unfold readSlotNonBlocking
    split <;> exact ⟨rfl, rfl, rfl⟩

theorem reachable_sizes {SlotSize NumSlots : Int} {rb : State}
    (h : Reachable SlotSize NumSlots rb) :
    rb.mSlotSize = SlotSize ∧ rb.mNumSlots = NumSlots ∧
      rb.mTotalSize = wrapInt (SlotSize * NumSlots) := by
  induction h with
  | init => exact ⟨rfl, rfl, rfl⟩
  | step _ st ih =>
    obtain ⟨h1, h2, h3⟩ := step_sizes st
    exact ⟨h1.trans ih.1, h2.trans ih.2.1, h3.trans ih.2.2⟩

theorem reachable_valid {SlotSize NumSlots : Int} (hs : 1 ≤ SlotSize) (hn : 1 ≤ NumSlots)
    (hfit : InRange SlotSize NumSlots) {rb : State} (h : Reachable SlotSize NumSlots rb) :
    Valid rb := by
  induction h with
  | init => exact ctor_valid hs hn hfit.1
  | step hr st ih =>
    have hz := reachable_sizes hr
    exact step_valid ih (by rw [hz.1, hz.2.1]; exact hfit) st

theorem valid_write_bound {rb : State} (h : Valid rb) :
    rb.mWritePosition.toNat + rb.mSlotSize.toNat ≤ rb.mRingBuffer.length ∧
    rb.mReadPosition.toNat + rb.mSlotSize.toNat ≤ rb.mRingBuffer.length ∧
    0 ≤ rb.mWritePosition ∧ 0 < rb.mTotalSize := by
  obtain ⟨s, n, r, f, hs, hn, hr, hf, hlen, e⟩ := h.exists_mk
  rw [hlen, e]
  simp only [mk, Int.toNat_ofNat]
  refine ⟨slot_bound (Nat.mod_lt _ (by omega)), slot_bound hr, Int.ofNat_nonneg _, ?_⟩
  have : 0 < s * n := Nat.mul_pos (by omega) (by omega)
  exact_mod_cast this

/-! ## Bytes of the storage and the queue of a canonical state -/

theorem memcpy_getElem? (dst src : List Int) (d s n i : Nat) (h1 : d + n ≤ dst.length)
    (h2 : s + n ≤ src.length) :
    (memcpy dst d src s n)[i]? = if d ≤ i ∧ i < d + n then src[s + (i - d)]? else dst[i]? := by
  simp only [memcpy, List.getElem?_append, List.length_append, List.length_take,
    List.length_drop, List.getElem?_take, List.getElem?_drop]
  have e1 : min d dst.length = d := by omega
  have e2 : min n (src.length - s) = n := by omega
  rw [e1, e2]
  by_cases c1 : i < d
  · have h3 : i < d + n := by omega
    have h4 : ¬ d ≤ i := by omega
    simp [c1, h3, h4]
  · by_cases c2 : i < d + n
    · have h3 : i - d < n := by omega
      have h4 : d ≤ i := by omega
      simp [c1, c2, h3, h4]
    · have h4 : d ≤ i := by omega
      have h5 : ¬ i - d < n := by omega
      have h6 : d + n + (i - (d + n)) = i := by omega
      simp [c1, c2, h4, h5, h6]

theorem slot_memcpy_same (dst src : List Int) (d n : Nat) (h1 : d + n ≤ dst.length)
    (h2 : n ≤ src.length) : ((memcpy dst d src 0 n).drop d).take n = src.take n := by
  apply List.ext_getElem?
  intro i
  simp only [List.getElem?_take, List.getElem?_drop]
  rw [memcpy_getElem? _ _ _ _ _ _ h1 (by omega)]
  by_cases c : i < n
  · have : d ≤ d + i ∧ d + i < d + n := by omega
    simp [c, this]
  · simp [c]

theorem slot_memcpy_other (dst src : List Int) (d n p : Nat) (h1 : d + n ≤ dst.length)
    (h2 : n ≤ src.length) (hp : p + n ≤ d ∨ d + n ≤ p) :
    ((memcpy dst d src 0 n).drop p).take n = (dst.drop p).take n := by
  apply List.ext_getElem?
  intro i
  simp only [List.getElem?_take, List.getElem?_drop]
  rw [memcpy_getElem? _ _ _ _ _ _ h1 (by omega)]
  by_cases c : i < n
  · have : ¬ (d ≤ p + i ∧ p + i < d + n) := by omega
    simp [c, this]
  · simp [c]

theorem pending_mk (s n r f : Nat) (buf last : List Int) :
    pending (mk s n r f buf last) = queueOf s n r f buf := by
  simp only [pending, slotAt, mk, queueOf, Int.toNat_ofNat]
  apply List.map_congr_left
  intro j _
  rw [← Nat.add_mul, scale_mod]

theorem queueOf_succ (s n r f : Nat) (buf : List Int) :
    queueOf s n r (f + 1) buf =
      (buf.drop (r % n * s)).take s :: queueOf s n ((r + 1) % n) f buf := by
  simp only [queueOf, List.range_succ_eq_map, List.map_cons, List.map_map, Nat.add_zero]
  congr 1
  apply List.map_congr_left
  intro j _
  simp only [Function.comp]
  have : ((r + 1) % n + j) % n = (r + (j + 1)) % n := by
    rw [Nat.add_mod, Nat.mod_mod, ← Nat.add_mod]
    congr 1; omega
  rw [this]

theorem queueOf_snoc (s n r f : Nat) (buf : List Int) :
    queueOf s n r (f + 1) buf =
      queueOf s n r f buf ++ [(buf.drop ((r + f) % n * s)).take s] := by
  simp only [queueOf, List.range_succ, List.map_append, List.map_cons, List.map_nil]

theorem queueOf_congr (s n r f : Nat) (buf buf' : List Int)
    (h : ∀ j, j < f → (buf'.drop ((r + j) % n * s)).take s = (buf.drop ((r + j) % n * s)).take s) :
    queueOf s n r f buf' = queueOf s n r f buf := by
  simp only [queueOf]
  apply List.map_congr_left
  intro j hj
  exact h j (List.mem_range.mp hj)

theorem mod_add_ne {n r j f : Nat} (hj : j < f) (hf : f < n) : (r + j) % n ≠ (r + f) % n := by
  intro h
  have h1 : j ≡ f [MOD n] := Nat.ModEq.add_left_cancel' r h
  have h2 : j % n = f % n := h1
  rw [Nat.mod_eq_of_lt (by omega), Nat.mod_eq_of_lt hf] at h2
  omega

theorem slots_disjoint {s k w : Nat} (h : k ≠ w) : k * s + s ≤ w * s ∨ w * s + s ≤ k * s := by
  rcases Nat.lt_or_gt_of_ne h with h1 | h1
  · left
    have : (k + 1) * s ≤ w * s := Nat.mul_le_mul_right s h1
    rw [Nat.add_mul, Nat.one_mul] at this
    exact this
  · right
    have : (w + 1) * s ≤ k * s := Nat.mul_le_mul_right s h1
    rw [Nat.add_mul, Nat.one_mul] at this
    exact this

theorem queueOf_insert (s n r f : Nat) (buf S : List Int) (hn : 1 ≤ n) (hf : f < n)
    (hlen : buf.length = s * n) (hS : s ≤ S.length) :
    queueOf s n r (f + 1) (memcpy buf ((r + f) % n * s) S 0 s) =
      queueOf s n r f buf ++ [S.take s] := by
  have hw : (r + f) % n * s + s ≤ buf.length := by
    rw [hlen]; exact slot_bound (Nat.mod_lt _ (by omega))
  rw [queueOf_snoc, slot_memcpy_same _ _ _ _ hw hS]
  congr 1
  apply queueOf_congr
  intro j hj
  exact slot_memcpy_other _ _ _ _ _ hw hS (slots_disjoint (mod_add_ne hj hf))

theorem queueOf_drop (s n : Nat) (buf : List Int) (k : Nat) :
    ∀ r f : Nat, (queueOf s n r f buf).drop k = queueOf s n ((r + k) % n) (f - k) buf := by
  induction k with
  | zero =>
    intro r f
    simp only [List.drop_zero, Nat.add_zero, Nat.sub_zero]
    apply List.map_congr_left
    intro j _
    rw [Nat.mod_add_mod]
  | succ k ih =>
    intro r f
    cases f with
    | zero => simp [queueOf]
    | succ f =>
      rw [queueOf_succ, List.drop_succ_cons, ih]
      have h1 : ((r + 1) % n + k) % n = (r + (k + 1)) % n := by
        rw [Nat.add_mod, Nat.mod_mod, ← Nat.add_mod]
        congr 1; omega
      have h2 : f + 1 - (k + 1) = f - k := by omega
      rw [h1, h2]

theorem queueOf_zeros (s n r f : Nat) (hn : 1 ≤ n) :
    queueOf s n r f (List.replicate (s * n) 0) = List.replicate f (silence s) := by
  simp only [queueOf, silence]
  rw [List.eq_replicate_iff]
  refine ⟨by simp, ?_⟩
  intro b hb
  obtain ⟨j, _, rfl⟩ := List.mem_map.mp hb
  have hw : (r + j) % n * s + s ≤ s * n := slot_bound (Nat.mod_lt _ (by omega))
  rw [List.drop_replicate, List.take_replicate]
  congr 1
  omega

theorem memset_all (buf : List Int) (c : Int) (n : Nat) (h : buf.length = n) :
    memset buf c n = List.replicate n c := by
  simp [memset, ← h]


/-! ## The queue across the operations -/

theorem pending_ctor {SlotSize NumSlots : Int} (hs : 1 ≤ SlotSize) (hn : 1 ≤ NumSlots)
    (hfit : TotalFits SlotSize NumSlots) :
    pending (RingBuffer SlotSize NumSlots) =
      List.replicate (NumSlots / 2).toNat (silence SlotSize.toNat) := by
  obtain ⟨s, rfl⟩ := Int.eq_ofNat_of_zero_le (by omega : 0 ≤ SlotSize)
  obtain ⟨n, rfl⟩ := Int.eq_ofNat_of_zero_le (by omega : 0 ≤ NumSlots)
  have hT : s * n ≤ 2147483647 := by
    unfold TotalFits intMax at hfit
    exact_mod_cast hfit
  rw [ctor_eq_mk _ _ hT, pending_mk, queueOf_zeros _ _ _ _ (by omega)]
  have : ((n : Int) / 2).toNat = n / 2 := by omega
  rw [this, Int.toNat_ofNat]

theorem pending_insertSlot {rb : State} (h : Valid rb) (S : List Int)
    (hS : rb.mSlotSize.toNat ≤ S.length) (hne : rb.mFullSlots ≠ rb.mNumSlots) :
    pending (insertSlot rb S) = pending rb ++ [S.take rb.mSlotSize.toNat] := by
  obtain ⟨s, n, r, f, hs, hn, hr, hf, hlen, e⟩ := h.exists_mk
  rw [e] at hS hne ⊢
  simp only [mk, Int.toNat_ofNat] at hS hne
  have hfn : f < n := by
    rcases Nat.lt_or_ge f n with h1 | h1
    · exact h1
    · exact absurd (by rw [Nat.le_antisymm hf h1]) hne
  rw [insertSlot_mk, pending_mk, pending_mk, queueOf_insert _ _ _ _ _ _ hn hfn hlen hS]
  simp only [mk, Int.toNat_ofNat]

theorem readSlot_out (rb : State) (out : List Int) :
    (readSlot rb out).2 =
      slotAt rb rb.mReadPosition.toNat ++ out.drop rb.mSlotSize.toNat := by
  simp [readSlot, memcpy, slotAt]

theorem pending_readSlot {rb : State} (h : Valid rb) (out : List Int)
    (hne : rb.mFullSlots ≠ 0) :
    pending rb = slotAt rb rb.mReadPosition.toNat :: pending (readSlot rb out).1 := by
  obtain ⟨s, n, r, f, hs, hn, hr, hf, hlen, e⟩ := h.exists_mk
  rw [e] at hne ⊢
  simp only [mk] at hne
  obtain ⟨f, rfl⟩ : ∃ g, f = g + 1 := by
    rcases Nat.eq_zero_or_pos f with h1 | h1
    · exact absurd (by rw [h1]; rfl) hne
    · exact ⟨f - 1, by omega⟩
  rw [readSlot_mk _ _ _ _ _ _ _ (by omega), pending_mk, pending_mk, queueOf_succ,
    Nat.mod_eq_of_lt hr, Nat.add_sub_cancel]
  simp only [slotAt, mk, Int.toNat_ofNat]

theorem pending_overflowReset {rb : State} (h : Valid rb)
    (hfit : InRange rb.mSlotSize rb.mNumSlots)
    (hfull : rb.mFullSlots = rb.mNumSlots) :
    pending (overflowReset rb) = (pending rb).drop (rb.mNumSlots / 2).toNat := by
  obtain ⟨s, n, r, f, hs, hn, hr, hf, hlen, e⟩ := h.exists_mk
  rw [e] at hfull hfit ⊢
  simp only [mk] at hfull hfit
  have hfn : f = n := by exact_mod_cast hfull
  subst hfn
  rw [overflowReset_mk _ _ _ _ _ hr (inRange_cast hn hfit).2, pending_mk, pending_mk,
    queueOf_drop]
  have : (((mk s f r f rb.mRingBuffer rb.mLastReadSlot).mNumSlots) / 2).toNat = f / 2 := by
    simp only [mk]; omega
  rw [this]

theorem pending_underrunReset {rb : State} (h : Valid rb)
    (hfit : InRange rb.mSlotSize rb.mNumSlots) (hempty : rb.mFullSlots = 0) :
    pending (underrunReset rb) =
      List.replicate (rb.mNumSlots / 2).toNat (silence rb.mSlotSize.toNat) := by
  obtain ⟨s, n, r, f, hs, hn, hr, hf, hlen, e⟩ := h.exists_mk
  rw [e] at hempty hfit ⊢
  simp only [mk] at hempty hfit
  have hf0 : f = 0 := by exact_mod_cast hempty
  subst hf0
  rw [underrunReset_mk _ _ _ _ _ hr (inRange_cast hn hfit).2, pending_mk,
    memset_all _ _ _ hlen, queueOf_zeros _ _ _ _ hn]
  have : (((mk s n r 0 rb.mRingBuffer rb.mLastReadSlot).mNumSlots) / 2).toNat = n / 2 := by
    simp only [mk]; omega
  rw [this]
  simp only [mk, Int.toNat_ofNat]

theorem pending_length {rb : State} : (pending rb).length = rb.mFullSlots.toNat := by
  simp [pending]


/-! ## Invariants of the reachable states -/

/-- The slot counter stays within the capacity across one completed call; no position
is involved. -/
theorem step_fullSlots {rb rb' : State} {NumSlots : Int} (hn : 1 ≤ rb.mNumSlots)
    (hf : 0 ≤ rb.mFullSlots ∧ rb.mFullSlots ≤ rb.mNumSlots) (hz : rb.mNumSlots = NumSlots)
    (st : Step rb rb') : 0 ≤ rb'.mFullSlots ∧ rb'.mFullSlots ≤ NumSlots := by
  have hd : Int.tdiv rb.mNumSlots 2 = rb.mNumSlots / 2 :=
    Int.tdiv_eq_ediv (by omega) (by decide)
  rw [← hz]
  cases st with
  | insertBlocking S _ hS e =>
    unfold insertSlotBlocking at e
    split at e
    · exact absurd e (by simp)
    · rename_i hne
      cases e
      show 0 ≤ rb.mFullSlots + 1 ∧ rb.mFullSlots + 1 ≤ rb.mNumSlots
      omega
  | readBlocking out _ out' e =>
    unfold readSlotBlocking at e
    split at e
    · exact absurd e (by simp)
    · rename_i hne
      cases e
      show 0 ≤ rb.mFullSlots - 1 ∧ rb.mFullSlots - 1 ≤ rb.mNumSlots
      omega
  | insertNonBlocking S hS =>
    unfold insertSlotNonBlocking
    split
    · rename_i hfull
      show 0 ≤ rb.mFullSlots - Int.tdiv rb.mNumSlots 2 ∧
        rb.mFullSlots - Int.tdiv rb.mNumSlots 2 ≤ rb.mNumSlots
      rw [hd]
      omega
    · rename_i hne
      show 0 ≤ rb.mFullSlots + 1 ∧ rb.mFullSlots + 1 ≤ rb.mNumSlots
      omega
  | readNonBlocking out =>
    unfold readSlotNonBlocking
    split
    · rename_i hempty
      show 0 ≤ rb.mFullSlots + Int.tdiv rb.mNumSlots 2 ∧
        rb.mFullSlots + Int.tdiv rb.mNumSlots 2 ≤ rb.mNumSlots
      rw [hd]
      omega
    · rename_i hne
      show 0 ≤ rb.mFullSlots - 1 ∧ rb.mFullSlots - 1 ≤ rb.mNumSlots
      omega

theorem bigSlot_length : bigSlot.length = 500000000 := List.length_replicate _ _

theorem reachable_bigEmpty : Reachable 500000000 4 bigEmpty :=
  Reachable.step (Reachable.step (Reachable.step (Reachable.step Reachable.init
    (Step.readNonBlocking _ [])) (Step.readNonBlocking _ []))
    (Step.insertNonBlocking _ bigSlot (by rw [bigSlot_length]; decide)))
    (Step.readNonBlocking _ [])

theorem reachable_bigResynced : Reachable 500000000 4 bigResynced :=
  Reachable.step reachable_bigEmpty (Step.readNonBlocking _ [])

theorem reachable_bigFull : Reachable 500000000 4 bigFull :=
  Reachable.step (Reachable.step (Reachable.step (Reachable.step reachable_bigEmpty
    (Step.insertNonBlocking _ bigSlot (by rw [bigSlot_length]; decide)))
    (Step.insertNonBlocking _ bigSlot (by rw [bigSlot_length]; decide)))
    (Step.insertNonBlocking _ bigSlot (by rw [bigSlot_length]; decide)))
    (Step.insertNonBlocking _ bigSlot (by rw [bigSlot_length]; decide))

theorem reachable_bigHalved : Reachable 500000000 4 bigHalved :=
  Reachable.step reachable_bigFull
    (Step.insertNonBlocking _ bigSlot (by rw [bigSlot_length]; decide))

theorem reachable_bigStale : Reachable 500000000 4 bigStale :=
  Reachable.step (Reachable.step reachable_bigResynced (Step.readNonBlocking _ []))
    (Step.readNonBlocking _ [])

/-- C1: in every state reachable from the constructor (slot size and slot count at least
one) by completed calls of the four public methods, `0 <= mFullSlots <= NumSlots`. -/
theorem fullSlots_bounds (SlotSize NumSlots : Int) (hs : 1 ≤ SlotSize) (hn : 1 ≤ NumSlots)
    (rb : State) (h : Reachable SlotSize NumSlots rb) :
    0 ≤ rb.mFullSlots ∧ rb.mFullSlots ≤ NumSlots := by
  have hd : Int.tdiv NumSlots 2 = NumSlots / 2 := Int.tdiv_eq_ediv (by omega) (by decide)
  induction h with
  | init =>
    show 0 ≤ Int.tdiv NumSlots 2 ∧ Int.tdiv NumSlots 2 ≤ NumSlots
    rw [hd]
    omega
  | step hr st ih =>
    have hz := (reachable_sizes hr).2.1
    exact step_fullSlots (by rw [hz]; exact hn) (by rw [hz]; exact ih) hz st

/-- Witness of C1: the state after a non-blocking insert, a non-blocking read and a
blocking insert into a buffer of three slots of two bytes. -/
theorem fullSlots_bounds_witness :
    (1 : Int) ≤ 2 ∧ (1 : Int) ≤ 3 ∧
    Reachable 2 3
      (insertSlot (readSlotNonBlocking (insertSlotNonBlocking (RingBuffer 2 3) [1, 2]) []).1
        [3, 4]) ∧
    (0 ≤ (insertSlot (readSlotNonBlocking (insertSlotNonBlocking (RingBuffer 2 3) [1, 2])
        []).1 [3, 4]).mFullSlots ∧
      (insertSlot (readSlotNonBlocking (insertSlotNonBlocking (RingBuffer 2 3) [1, 2])
        []).1 [3, 4]).mFullSlots ≤ 3) :=
  have hr : Reachable 2 3
      (insertSlot (readSlotNonBlocking (insertSlotNonBlocking (RingBuffer 2 3) [1, 2]) []).1
        [3, 4]) :=
    Reachable.step
      (Reachable.step
        (Reachable.step Reachable.init (Step.insertNonBlocking _ [1, 2] (by decide)))
        (Step.readNonBlocking _ []))
      (Step.insertBlocking _ [3, 4] _ (by decide) (by decide))
  ⟨by decide, by decide, hr, fullSlots_bounds 2 3 (by decide) (by decide) _ hr⟩

/-- C2 as stated fails for large buffers: in `RingBuffer(500000000, 4)`, whose storage
size fits in an `int`, two reads, an insert and a read leave the buffer empty at offset
1500000000; the underrun resync of the next `readSlotNonBlocking` forms the `int` sum
`1500000000 + 1000000000`, which wraps, and stores the write position `-1794967296`,
while `(mReadPosition + mFullSlots*SlotSize) mod (SlotSize*NumSlots)` is 500000000. -/
theorem writePosition_counterexample :
    (1 : Int) ≤ 500000000 ∧ (1 : Int) ≤ 4 ∧ TotalFits 500000000 4 ∧
    Reachable 500000000 4 bigResynced ∧
    bigResynced.mWritePosition = -1794967296 ∧
    (bigResynced.mReadPosition + bigResynced.mFullSlots * 500000000) % (500000000 * 4) =
      500000000 :=
  ⟨by decide, by decide, by decide, reachable_bigResynced, by decide, by decide⟩

/-- C2, amended: when no `int` computation wraps (`InRange`), in every state reachable
from the constructor (slot size and slot count at least one) through the four public
methods, resyncs included,
`mWritePosition == (mReadPosition + mFullSlots*SlotSize) mod (SlotSize*NumSlots)`. -/
theorem writePosition_eq (SlotSize NumSlots : Int) (hs : 1 ≤ SlotSize) (hn : 1 ≤ NumSlots)
    (hfit : InRange SlotSize NumSlots) (rb : State) (h : Reachable SlotSize NumSlots rb) :
    rb.mWritePosition =
      (rb.mReadPosition + rb.mFullSlots * SlotSize) % (SlotSize * NumSlots) := by
  have hv := reachable_valid hs hn hfit h
  have hz := reachable_sizes h
  obtain ⟨_, _, hT, _, _, _, _, _, hw, _⟩ := hv
  rw [hT, hz.1, hz.2.1] at hw
  exact hw

/-- Witness of C2, amended: a full buffer of two one-byte slots after an overflow
resync. -/
theorem writePosition_eq_witness :
    (1 : Int) ≤ 1 ∧ (1 : Int) ≤ 2 ∧ InRange 1 2 ∧
    Reachable 1 2
      (insertSlotNonBlocking (insertSlotNonBlocking (RingBuffer 1 2) [7]) [8]) ∧
    (insertSlotNonBlocking (insertSlotNonBlocking (RingBuffer 1 2) [7]) [8]).mWritePosition =
      ((insertSlotNonBlocking (insertSlotNonBlocking (RingBuffer 1 2) [7])
          [8]).mReadPosition +
        (insertSlotNonBlocking (insertSlotNonBlocking (RingBuffer 1 2) [7]) [8]).mFullSlots
          * 1) % (1 * 2) :=
  have hr : Reachable 1 2
      (insertSlotNonBlocking (insertSlotNonBlocking (RingBuffer 1 2) [7]) [8]) :=
    Reachable.step
      (Reachable.step Reachable.init (Step.insertNonBlocking _ [7] (by decide)))
      (Step.insertNonBlocking _ [8] (by decide))
  ⟨by decide, by decide, by decide, hr,
    writePosition_eq 1 2 (by decide) (by decide) (by decide) _ hr⟩


/-! ## The resyncs and the constructor -/

theorem tdiv_half {n : Int} (h : 0 ≤ n) : Int.tdiv n 2 = n / 2 :=
  Int.tdiv_eq_ediv h (by decide)

theorem half_mul_nonneg {n s : Int} (hn : 0 ≤ n) (hs : 0 ≤ s) : 0 ≤ n / 2 * s :=
  Int.mul_nonneg (Int.ediv_nonneg hn (by decide)) hs

/-- The results that the model computes exactly cannot overflow: in a valid state whose
storage size is an `int`, each of them is representable. -/
theorem exactInts_in_range (rb : State) (hv : Valid rb) (hT : rb.mTotalSize ≤ intMax) :
    ∀ x ∈ exactInts rb, -intMax - 1 ≤ x ∧ x ≤ intMax := by
  obtain ⟨hwb, hrb, hw0, _⟩ := valid_write_bound hv
  obtain ⟨h1, h2, h3, h4, h5, _, h7, h8, _, hlen⟩ := hv
  have hnT : rb.mNumSlots ≤ rb.mTotalSize := by rw [h3]; nlinarith
  have hd : Int.tdiv rb.mNumSlots 2 = rb.mNumSlots / 2 := tdiv_half (by omega)
  rw [hlen] at hwb hrb
  intro x hx
  simp only [exactInts, hd, List.mem_cons, List.mem_singleton, List.not_mem_nil,
    or_false] at hx
  unfold intMax at hT ⊢
  rcases hx with rfl | rfl | rfl | rfl | rfl
  · constructor <;> omega
  · constructor <;> omega
  · constructor <;> omega
  · split <;> constructor <;> omega
  · split <;> constructor <;> omega

/-- Nothing wraps in range: in a valid state of a buffer whose sizes satisfy `InRange`,
every result that the model wraps is representable, so `wrapInt` leaves it as it is. -/
theorem wrappedInts_in_range (rb : State) (hv : Valid rb)
    (hfit : InRange rb.mSlotSize rb.mNumSlots) :
    ∀ x ∈ wrappedInts rb, -intMax - 1 ≤ x ∧ x ≤ intMax ∧ wrapInt x = x := by
  obtain ⟨s, n, r, f, hs, hn, hr, hf, hlen, e⟩ := hv.exists_mk
  rw [e] at hfit ⊢
  simp only [mk] at hfit
  obtain ⟨hT, hfit'⟩ := inRange_cast hn hfit
  have hw : (r + f) % n < n := Nat.mod_lt _ (by omega)
  obtain ⟨hb1, hb2⟩ := reset_sum_le hr hfit'
  obtain ⟨_, hb3⟩ := reset_sum_le hw hfit'
  have key : ∀ y : Nat, y ≤ 2147483647 →
      -intMax - 1 ≤ (y : Int) ∧ (y : Int) ≤ intMax ∧ wrapInt (y : Int) = (y : Int) := by
    intro y hy
    refine ⟨?_, ?_, wrapInt_cast y hy⟩ <;> unfold intMax <;> omega
  have hd : Int.tdiv (n : Int) 2 = ((n / 2 : Nat) : Int) := tdiv_cast n 2
  intro x hx
  simp only [wrappedInts, mk, hd, List.mem_cons, List.mem_singleton, List.not_mem_nil,
    or_false] at hx
  rcases hx with rfl | rfl | rfl | rfl
  · have e1 : (s : Int) * (n : Int) = ((s * n : Nat) : Int) := by push_cast; ring
    rw [e1]; exact key _ hT
  · have e1 : ((n / 2 : Nat) : Int) * (s : Int) = ((n / 2 * s : Nat) : Int) := by
      push_cast; ring
    rw [e1]; exact key _ hb1
  · have e1 : (((r + f) % n * s : Nat) : Int) + ((n / 2 : Nat) : Int) * (s : Int)
        = ((((r + f) % n + n / 2) * s : Nat) : Int) := by push_cast; ring
    rw [e1]; exact key _ hb3
  · have e1 : ((r * s : Nat) : Int) + ((n / 2 : Nat) : Int) * (s : Int)
        = (((r + n / 2) * s : Nat) : Int) := by push_cast; ring
    rw [e1]; exact key _ hb2

/-- The sums of a reset do not wrap on a valid state in range: the advanced position is
the exact sum modulo the total size, and the state after the reset is valid. -/
theorem reset_position {rb : State} (hv : Valid rb)
    (hfit : InRange rb.mSlotSize rb.mNumSlots) (p : Int) (hp0 : 0 ≤ p)
    (hp : p + rb.mSlotSize ≤ rb.mTotalSize) :
    Int.tmod (wrapInt (p + wrapInt (Int.tdiv rb.mNumSlots 2 * rb.mSlotSize))) rb.mTotalSize =
      (p + rb.mNumSlots / 2 * rb.mSlotSize) % rb.mTotalSize := by
  obtain ⟨h1, h2, h3, _⟩ := hv
  obtain ⟨hT, hR⟩ := hfit
  have hd : Int.tdiv rb.mNumSlots 2 = rb.mNumSlots / 2 := tdiv_half (by omega)
  have hh : 0 ≤ rb.mNumSlots / 2 * rb.mSlotSize := half_mul_nonneg (by omega) (by omega)
  have hT0 : 0 ≤ rb.mTotalSize := by rw [h3]; exact Int.mul_nonneg (by omega) (by omega)
  have hsum : p + rb.mNumSlots / 2 * rb.mSlotSize ≤ intMax := by
    have e : (rb.mNumSlots - 1 + rb.mNumSlots / 2) * rb.mSlotSize
        = rb.mSlotSize * rb.mNumSlots - rb.mSlotSize + rb.mNumSlots / 2 * rb.mSlotSize := by
      ring
    rw [e, ← h3] at hR
    omega
  have w1 : wrapInt (rb.mNumSlots / 2 * rb.mSlotSize) = rb.mNumSlots / 2 * rb.mSlotSize := by
    unfold wrapInt; unfold intMax at hsum; omega
  have w2 : wrapInt (p + rb.mNumSlots / 2 * rb.mSlotSize)
      = p + rb.mNumSlots / 2 * rb.mSlotSize := by
    unfold wrapInt; unfold intMax at hsum; omega
  rw [hd, w1, w2]
  exact Int.tmod_eq_emod (by omega) hT0

/-- C3 as stated fails for large buffers: in the well-formed full state of
`RingBuffer(1048576, 1400)` with the read position at slot 1350, offset 1415577600 (the
storage size 1468006400 fits in an `int`), the overflow resync forms the `int` sum `1415577600 + 700*1048576`, which
wraps, and stores the read position `-677380096`, while
`(mReadPosition + (mNumSlots/2)*mSlotSize) mod mTotalSize` is 681574400. -/
theorem insertSlotNonBlocking_full_counterexample :
    Valid (mk 1048576 1400 1350 1400 (List.replicate 1468006400 0)
      (List.replicate 1048576 0)) ∧
    TotalFits 1048576 1400 ∧
    (mk 1048576 1400 1350 1400 (List.replicate 1468006400 0)
      (List.replicate 1048576 0)).mFullSlots =
      (mk 1048576 1400 1350 1400 (List.replicate 1468006400 0)
        (List.replicate 1048576 0)).mNumSlots ∧
    (mk 1048576 1400 1350 1400 (List.replicate 1468006400 0)
      (List.replicate 1048576 0)).mReadPosition = 1415577600 ∧
    (insertSlotNonBlocking (mk 1048576 1400 1350 1400 (List.replicate 1468006400 0)
      (List.replicate 1048576 0)) (List.replicate 1048576 7)).mReadPosition = -677380096 ∧
    ((1415577600 : Int) + 1400 / 2 * 1048576) % 1468006400 = 681574400 :=
  ⟨valid_mk _ _ (by decide) (by decide) (by decide) (by decide) (List.length_replicate _ _),
    by decide, by decide, by decide, by decide, by decide⟩

/-- C3, amended: on a valid full state (`mFullSlots == mNumSlots`) of a buffer in which no
`int` computation wraps (`InRange`), `insertSlotNonBlocking(S)` leaves the storage and
the write position unchanged (S is not written), sets the read position to
`(mReadPosition + (mNumSlots/2)*mSlotSize) mod mTotalSize` and decreases `mFullSlots` by
`mNumSlots/2`; with eight slots `mFullSlots` becomes 4 and the read position advances by
`4*mSlotSize`. -/
theorem insertSlotNonBlocking_full (rb : State) (S : List Int) (hv : Valid rb)
    (hfit : InRange rb.mSlotSize rb.mNumSlots) (hfull : rb.mFullSlots = rb.mNumSlots) :
    (insertSlotNonBlocking rb S).mRingBuffer = rb.mRingBuffer ∧
    (insertSlotNonBlocking rb S).mWritePosition = rb.mWritePosition ∧
    (insertSlotNonBlocking rb S).mReadPosition =
      (rb.mReadPosition + rb.mNumSlots / 2 * rb.mSlotSize) % rb.mTotalSize ∧
    (insertSlotNonBlocking rb S).mFullSlots = rb.mFullSlots - rb.mNumSlots / 2 ∧
    (rb.mNumSlots = 8 →
      (insertSlotNonBlocking rb S).mFullSlots = 4 ∧
      (insertSlotNonBlocking rb S).mReadPosition =
        (rb.mReadPosition + 4 * rb.mSlotSize) % rb.mTotalSize) := by
  have e : insertSlotNonBlocking rb S = overflowReset rb := by
    unfold insertSlotNonBlocking
    rw [if_pos hfull]
  have hd : Int.tdiv rb.mNumSlots 2 = rb.mNumSlots / 2 := tdiv_half (by have := hv.2.1; omega)
  have hb := (valid_write_bound hv).2.1
  have hr0 : 0 ≤ rb.mReadPosition := hv.2.2.2.1
  have hlen := hv.2.2.2.2.2.2.2.2.2
  have hrp : (overflowReset rb).mReadPosition =
      (rb.mReadPosition + rb.mNumSlots / 2 * rb.mSlotSize) % rb.mTotalSize :=
    reset_position hv hfit _ hr0 (by have := hv.1; rw [hlen] at hb; omega)
  have hf : (overflowReset rb).mFullSlots = rb.mFullSlots - rb.mNumSlots / 2 := by
    simp only [overflowReset, hd]
  rw [e]
  refine ⟨rfl, rfl, hrp, hf, ?_⟩
  intro h8
  rw [hrp, hf, hfull, h8]
  exact ⟨by decide, rfl⟩

/-- Witness of C3, amended: a full buffer of eight one-byte slots holding 1..8, read
position 3. -/
theorem insertSlotNonBlocking_full_witness :
    Valid (mk 1 8 3 8 [1, 2, 3, 4, 5, 6, 7, 8] [0]) ∧ InRange 1 8 ∧
    (mk 1 8 3 8 [1, 2, 3, 4, 5, 6, 7, 8] [0]).mFullSlots =
      (mk 1 8 3 8 [1, 2, 3, 4, 5, 6, 7, 8] [0]).mNumSlots ∧
    (insertSlotNonBlocking (mk 1 8 3 8 [1, 2, 3, 4, 5, 6, 7, 8] [0]) [9]).mRingBuffer =
      [1, 2, 3, 4, 5, 6, 7, 8] ∧
    (insertSlotNonBlocking (mk 1 8 3 8 [1, 2, 3, 4, 5, 6, 7, 8] [0]) [9]).mFullSlots = 4 ∧
    (insertSlotNonBlocking (mk 1 8 3 8 [1, 2, 3, 4, 5, 6, 7, 8] [0]) [9]).mReadPosition = 7 :=
  have h := insertSlotNonBlocking_full (mk 1 8 3 8 [1, 2, 3, 4, 5, 6, 7, 8] [0]) [9]
    (by decide) (by decide) (by decide)
  ⟨by decide, by decide, by decide, h.1, (h.2.2.2.2 (by decide)).1,
    (h.2.2.2.2 (by decide)).2.trans (by decide)⟩

/-- C4 as stated fails for large buffers: in the well-formed empty state of
`RingBuffer(1048576, 1400)` (storage size 1468006400) with both positions at slot 1350, offset 1415577600, the
underrun resync forms the `int` sum `1415577600 + 700*1048576`, which wraps, and stores
the write position `-677380096`, while
`(mWritePosition + (mNumSlots/2)*mSlotSize) mod mTotalSize` is 681574400. -/
theorem readSlotNonBlocking_empty_counterexample :
    Valid (mk 1048576 1400 1350 0 (List.replicate 1468006400 0)
      (List.replicate 1048576 0)) ∧
    TotalFits 1048576 1400 ∧
    (mk 1048576 1400 1350 0 (List.replicate 1468006400 0)
      (List.replicate 1048576 0)).mFullSlots = 0 ∧
    (mk 1048576 1400 1350 0 (List.replicate 1468006400 0)
      (List.replicate 1048576 0)).mWritePosition = 1415577600 ∧
    (readSlotNonBlocking (mk 1048576 1400 1350 0 (List.replicate 1468006400 0)
      (List.replicate 1048576 0)) []).1.mWritePosition = -677380096 ∧
    ((1415577600 : Int) + 1400 / 2 * 1048576) % 1468006400 = 681574400 :=
  ⟨valid_mk _ _ (by decide) (by decide) (by decide) (by decide) (List.length_replicate _ _),
    by decide, by decide, by decide, by decide, by decide⟩

/-- C4, amended: on a valid empty state (`mFullSlots == 0`) of a buffer in which no `int`
computation wraps (`InRange`), `readSlotNonBlocking` sets the write position to
`(mWritePosition + (mNumSlots/2)*mSlotSize) mod mTotalSize`, sets `mFullSlots` to
`mNumSlots/2` and leaves every byte of the storage equal to zero; with eight slots
`mFullSlots` becomes 4 and the write position advances by `4*mSlotSize`. -/
theorem readSlotNonBlocking_empty (rb : State) (out : List Int) (hv : Valid rb)
    (hfit : InRange rb.mSlotSize rb.mNumSlots) (hempty : rb.mFullSlots = 0) :
    (readSlotNonBlocking rb out).1.mWritePosition =
      (rb.mWritePosition + rb.mNumSlots / 2 * rb.mSlotSize) % rb.mTotalSize ∧
    (readSlotNonBlocking rb out).1.mFullSlots = rb.mNumSlots / 2 ∧
    (readSlotNonBlocking rb out).1.mRingBuffer = List.replicate rb.mTotalSize.toNat 0 ∧
    (∀ b ∈ (readSlotNonBlocking rb out).1.mRingBuffer, b = 0) ∧
    (rb.mNumSlots = 8 →
      (readSlotNonBlocking rb out).1.mFullSlots = 4 ∧
      (readSlotNonBlocking rb out).1.mWritePosition =
        (rb.mWritePosition + 4 * rb.mSlotSize) % rb.mTotalSize) := by
  have e : readSlotNonBlocking rb out = (underrunReset rb, out) := by
    unfold readSlotNonBlocking
    rw [if_pos hempty]
  have hd : Int.tdiv rb.mNumSlots 2 = rb.mNumSlots / 2 := tdiv_half (by have := hv.2.1; omega)
  obtain ⟨hb, _, hw0, _⟩ := valid_write_bound hv
  have hlen := hv.2.2.2.2.2.2.2.2.2
  have hwp : (underrunReset rb).mWritePosition =
      (rb.mWritePosition + rb.mNumSlots / 2 * rb.mSlotSize) % rb.mTotalSize :=
    reset_position hv hfit _ hw0 (by have := hv.1; rw [hlen] at hb; omega)
  have hf : (underrunReset rb).mFullSlots = rb.mNumSlots / 2 := by
    simp only [underrunReset, hd, hempty, Int.zero_add]
  have hbuf : (underrunReset rb).mRingBuffer = List.replicate rb.mTotalSize.toNat 0 :=
    memset_all _ _ _ hlen
  rw [e]
  refine ⟨hwp, hf, hbuf, ?_, ?_⟩
  · intro b hb'
    rw [hbuf] at hb'
    exact List.eq_of_mem_replicate hb'
  · intro h8
    rw [hwp, hf, h8]
    exact ⟨by decide, rfl⟩

/-- Witness of C4, amended: an empty buffer of eight one-byte slots with stale bytes,
positions 5. -/
theorem readSlotNonBlocking_empty_witness :
    Valid (mk 1 8 5 0 [1, 2, 3, 4, 5, 6, 7, 8] [0]) ∧ InRange 1 8 ∧
    (mk 1 8 5 0 [1, 2, 3, 4, 5, 6, 7, 8] [0]).mFullSlots = 0 ∧
    (readSlotNonBlocking (mk 1 8 5 0 [1, 2, 3, 4, 5, 6, 7, 8] [0]) [9]).1.mRingBuffer =
      [0, 0, 0, 0, 0, 0, 0, 0] ∧
    (readSlotNonBlocking (mk 1 8 5 0 [1, 2, 3, 4, 5, 6, 7, 8] [0]) [9]).1.mFullSlots = 4 ∧
    (readSlotNonBlocking (mk 1 8 5 0 [1, 2, 3, 4, 5, 6, 7, 8] [0]) [9]).1.mWritePosition = 1 :=
  have h := readSlotNonBlocking_empty (mk 1 8 5 0 [1, 2, 3, 4, 5, 6, 7, 8] [0]) [9]
    (by decide) (by decide) (by decide)
  ⟨by decide, by decide, by decide, h.2.2.1.trans (by decide), (h.2.2.2.2 (by decide)).1,
    (h.2.2.2.2 (by decide)).2.trans (by decide)⟩

/-- C5 as stated fails for large sizes: for `RingBuffer(65537, 65537)` the `int` product
`mSlotSize*mNumSlots` wraps to 131073 and `(NumSlots/2)*SlotSize` wraps too, so the
constructor stores the total size 131073 and the write position `-81921`, while
`((N/2)*SlotSize) mod (SlotSize*N)` is 2147516416. -/
theorem constructor_counterexample :
    (1 : Int) ≤ 65537 ∧
    (RingBuffer 65537 65537).mTotalSize = 131073 ∧
    (RingBuffer 65537 65537).mWritePosition = -81921 ∧
    ((65537 : Int) / 2 * 65537) % (65537 * 65537) = 2147516416 :=
  ⟨by decide, by decide, by decide, by decide⟩

/-- C5, amended: for slot size and slot count `N` at least one whose product fits in an
`int`, the state right after construction has `mFullSlots == N/2`, `mReadPosition == 0`,
`mWritePosition == ((N/2)*SlotSize) mod (SlotSize*N)`, a storage of `SlotSize*N` bytes
all zero and a `mLastReadSlot` of `SlotSize` bytes all zero. -/
theorem constructor_state (SlotSize NumSlots : Int) (hs : 1 ≤ SlotSize) (hn : 1 ≤ NumSlots)
    (hfit : TotalFits SlotSize NumSlots) :
    (RingBuffer SlotSize NumSlots).mFullSlots = NumSlots / 2 ∧
    (RingBuffer SlotSize NumSlots).mReadPosition = 0 ∧
    (RingBuffer SlotSize NumSlots).mWritePosition =
      (NumSlots / 2 * SlotSize) % (SlotSize * NumSlots) ∧
    (RingBuffer SlotSize NumSlots).mTotalSize = SlotSize * NumSlots ∧
    (RingBuffer SlotSize NumSlots).mRingBuffer =
      List.replicate (SlotSize * NumSlots).toNat 0 ∧
    (RingBuffer SlotSize NumSlots).mLastReadSlot = List.replicate SlotSize.toNat 0 ∧
    (∀ b ∈ (RingBuffer SlotSize NumSlots).mRingBuffer, b = 0) ∧
    (∀ b ∈ (RingBuffer SlotSize NumSlots).mLastReadSlot, b = 0) := by
  have h2 : Int.tdiv NumSlots 2 = NumSlots / 2 :=
    Int.tdiv_eq_ediv (by omega) (by decide)
  have h3 : 0 ≤ NumSlots / 2 := Int.ediv_nonneg (by omega) (by decide)
  have h4 : 0 ≤ NumSlots / 2 * SlotSize := Int.mul_nonneg h3 (by omega)
  have h5 : 0 ≤ SlotSize * NumSlots := Int.mul_nonneg (by omega) (by omega)
  have h6 : NumSlots / 2 * SlotSize ≤ SlotSize * NumSlots := by
    rw [Int.mul_comm SlotSize NumSlots]
    exact Int.mul_le_mul_of_nonneg_right (by omega) (by omega)
  unfold TotalFits intMax at hfit
  have w1 : wrapInt (SlotSize * NumSlots) = SlotSize * NumSlots := by
    unfold wrapInt; omega
  have w2 : wrapInt (NumSlots / 2 * SlotSize) = NumSlots / 2 * SlotSize := by
    unfold wrapInt; omega
  have hbuf : (RingBuffer SlotSize NumSlots).mRingBuffer =
      List.replicate (SlotSize * NumSlots).toNat 0 := by
    simp only [RingBuffer, w1]
  refine ⟨h2, rfl, ?_, w1, hbuf, rfl, ?_, ?_⟩
  · simp only [RingBuffer, h2, w1, w2]
    exact Int.tmod_eq_emod h4 h5
  · intro b hb
    rw [hbuf] at hb
    exact List.eq_of_mem_replicate hb
  · intro b hb
    exact List.eq_of_mem_replicate hb

/-- Witness of C5, amended: five slots of three bytes. -/
theorem constructor_state_witness :
    (1 : Int) ≤ 3 ∧ (1 : Int) ≤ 5 ∧ TotalFits 3 5 ∧
    (RingBuffer 3 5).mFullSlots = 2 ∧ (RingBuffer 3 5).mReadPosition = 0 ∧
    (RingBuffer 3 5).mWritePosition = 6 ∧
    (RingBuffer 3 5).mRingBuffer = List.replicate 15 0 :=
  have h := constructor_state 3 5 (by decide) (by decide) (by decide)
  ⟨by decide, by decide, by decide, h.1.trans (by decide), h.2.1, h.2.2.1.trans (by decide),
    h.2.2.2.2.1.trans (by decide)⟩

/-! ## The transfers -/

/-- C10: whenever the blocking methods do not wait, the non-blocking ones do the same:
with `mFullSlots < mNumSlots`, `insertSlotBlocking(S)` completes in the state that
`insertSlotNonBlocking(S)` produces; with `mFullSlots > 0`, `readSlotBlocking` completes
with the state and the caller's buffer that `readSlotNonBlocking` produces. -/
theorem nonBlocking_eq_blocking (rb : State) (S out : List Int) :
    (rb.mFullSlots < rb.mNumSlots →
      insertSlotBlocking rb S = some (insertSlotNonBlocking rb S)) ∧
    (0 < rb.mFullSlots →
      readSlotBlocking rb out = some (readSlotNonBlocking rb out)) := by
  constructor
  · intro h
    have hne : rb.mFullSlots ≠ rb.mNumSlots := by omega
    unfold insertSlotBlocking insertSlotNonBlocking
    rw [if_neg hne, if_neg hne]
  · intro h
    have hne : rb.mFullSlots ≠ 0 := by omega
    unfold readSlotBlocking readSlotNonBlocking
    rw [if_neg hne, if_neg hne]

/-- Witness of C10: a buffer of three two-byte slots with one full slot. -/
theorem nonBlocking_eq_blocking_witness :
    (mk 2 3 2 1 [1, 2, 3, 4, 5, 6] [0, 0]).mFullSlots <
      (mk 2 3 2 1 [1, 2, 3, 4, 5, 6] [0, 0]).mNumSlots ∧
    0 < (mk 2 3 2 1 [1, 2, 3, 4, 5, 6] [0, 0]).mFullSlots ∧
    insertSlotBlocking (mk 2 3 2 1 [1, 2, 3, 4, 5, 6] [0, 0]) [8, 9] =
      some (insertSlotNonBlocking (mk 2 3 2 1 [1, 2, 3, 4, 5, 6] [0, 0]) [8, 9]) ∧
    readSlotBlocking (mk 2 3 2 1 [1, 2, 3, 4, 5, 6] [0, 0]) [7, 7] =
      some (readSlotNonBlocking (mk 2 3 2 1 [1, 2, 3, 4, 5, 6] [0, 0]) [7, 7]) :=
  have h := nonBlocking_eq_blocking (mk 2 3 2 1 [1, 2, 3, 4, 5, 6] [0, 0]) [8, 9] [7, 7]
  ⟨by decide, by decide, h.1 (by decide), h.2 (by decide)⟩


/-! ## Round trip -/

theorem insertThenRead_mk (s n r : Nat) (buf last S out : List Int)
    (hn : 1 ≤ n) (hr : r < n) (hlen : buf.length = s * n) (hS : s ≤ S.length) :
    insertThenRead (mk s n r 0 buf last) S out = some (S.take s ++ out.drop s) := by
  have h1 : insertSlotBlocking (mk s n r 0 buf last) S
      = some (mk s n r 1 (memcpy buf ((r + 0) % n * s) S 0 s) last) := by
    unfold insertSlotBlocking
    rw [if_neg, insertSlot_mk]
    simp only [mk]
    omega
  have h2 : readSlotBlocking (mk s n r 1 (memcpy buf ((r + 0) % n * s) S 0 s) last) out
      = some (readSlot (mk s n r 1 (memcpy buf ((r + 0) % n * s) S 0 s) last) out) := by
    unfold readSlotBlocking
    rw [if_neg]
    simp only [mk]
    omega
  have hw : r * s + s ≤ buf.length := by rw [hlen]; exact slot_bound hr
  simp only [insertThenRead, h1, h2, Option.map_some', readSlot_out]
  simp only [Nat.add_zero, Nat.mod_eq_of_lt hr, slotAt, mk, Int.toNat_ofNat]
  rw [slot_memcpy_same _ _ _ _ hw hS]

/-- C6 as stated fails: right after construction of a buffer of two one-byte slots
`insertSlotBlocking` does not have to wait, yet inserting the slot `[7]` and reading
at once delivers the pre-seeded zero byte and not `7`.  And on an empty buffer it fails
when an `int` sum has wrapped: in the reachable empty state `bigStale` of
`RingBuffer(500000000, 4)` the insert copies to the write position `-1794967296`, before
the storage, while the read copies from the read position 500000000. -/
theorem insertThenRead_counterexample :
    (Reachable 1 2 (RingBuffer 1 2) ∧
      (RingBuffer 1 2).mFullSlots < (RingBuffer 1 2).mNumSlots ∧
      insertThenRead (RingBuffer 1 2) [7] [9] = some [0] ∧
      insertThenRead (RingBuffer 1 2) [7] [9] ≠ some ([7].take 1 ++ [9].drop 1)) ∧
    (Reachable 500000000 4 bigStale ∧ bigStale.mFullSlots = 0 ∧
      bigStale.mWritePosition = -1794967296 ∧ bigStale.mReadPosition = 500000000) :=
  ⟨⟨Reachable.init, by decide, by decide, by decide⟩,
    ⟨reachable_bigStale, by decide, by decide, by decide⟩⟩

/-- C6, amended: in every reachable state of a buffer (slot size and slot count at least
one, no `int` computation wrapping: `InRange`) that is empty (`mFullSlots == 0`),
`insertSlotBlocking(S)` followed immediately by `readSlotBlocking(out)` completes and
leaves in the first `SlotSize` bytes of `out` exactly the `SlotSize` bytes of S (the rest
of `out` is untouched). -/
theorem insertThenRead_empty (SlotSize NumSlots : Int) (hs : 1 ≤ SlotSize)
    (hn : 1 ≤ NumSlots) (hfit : InRange SlotSize NumSlots) (rb : State)
    (h : Reachable SlotSize NumSlots rb)
    (hempty : rb.mFullSlots = 0) (S out : List Int) (hS : SlotSize.toNat ≤ S.length) :
    insertThenRead rb S out =
      some (S.take SlotSize.toNat ++ out.drop SlotSize.toNat) := by
  have hz := reachable_sizes h
  obtain ⟨s, n, r, f, hs', hn', hr, hf, hlen, e⟩ :=
    (reachable_valid hs hn hfit h).exists_mk
  rw [e] at hempty hz
  simp only [mk] at hempty hz
  have hf0 : f = 0 := by exact_mod_cast hempty
  subst hf0
  have hss : SlotSize.toNat = s := by rw [← hz.1, Int.toNat_ofNat]
  rw [hss] at hS ⊢
  rw [e]
  exact insertThenRead_mk s n r _ _ S out hn' hr hlen hS

/-- Witness of C6, amended: the empty buffer reached from `RingBuffer(2, 2)` by one
blocking read. -/
theorem insertThenRead_empty_witness :
    (1 : Int) ≤ 2 ∧ (1 : Int) ≤ 2 ∧ InRange 2 2 ∧
    Reachable 2 2 (readSlot (RingBuffer 2 2) []).1 ∧
    (readSlot (RingBuffer 2 2) []).1.mFullSlots = 0 ∧
    insertThenRead (readSlot (RingBuffer 2 2) []).1 [5, 6] [9, 9, 9] = some [5, 6, 9] :=
  have hr : Reachable 2 2 (readSlot (RingBuffer 2 2) []).1 :=
    Reachable.step Reachable.init
      (Step.readBlocking _ [] _ (readSlot (RingBuffer 2 2) []).2 (by decide))
  ⟨by decide, by decide, by decide, hr, by decide,
    insertThenRead_empty 2 2 (by decide) (by decide) (by decide) _ hr (by decide) [5, 6]
      [9, 9, 9] (by decide)⟩


/-! ## First in, first out -/

theorem slotAt_read_length {rb : State} (h : Valid rb) :
    (slotAt rb rb.mReadPosition.toNat).length = rb.mSlotSize.toNat := by
  have hb := (valid_write_bound h).2.1
  simp only [slotAt, List.length_take, List.length_drop]
  omega

theorem readSlot_delivered {rb : State} (h : Valid rb) (out : List Int) :
    (readSlot rb out).2.take rb.mSlotSize.toNat = slotAt rb rb.mReadPosition.toNat := by
  rw [readSlot_out, List.take_append_of_le_length (by rw [slotAt_read_length h]),
    List.take_of_length_le (by rw [slotAt_read_length h])]

/-- Effect of one successful insert on a valid state. -/
theorem insert_queue {rb : State} (h : Valid rb) (S : List Int)
    (hS : rb.mSlotSize.toNat ≤ S.length) (hne : rb.mFullSlots ≠ rb.mNumSlots) :
    Valid (insertSlot rb S) ∧ (insertSlot rb S).mSlotSize = rb.mSlotSize ∧
      pending rb ++ [S.take rb.mSlotSize.toNat] = pending (insertSlot rb S) :=
  ⟨insertSlot_valid h S hS hne, rfl, (pending_insertSlot h S hS hne).symm⟩

/-- Effect of one successful read on a valid state. -/
theorem read_queue {rb : State} (h : Valid rb) (out : List Int) (hne : rb.mFullSlots ≠ 0) :
    Valid (readSlot rb out).1 ∧ (readSlot rb out).1.mSlotSize = rb.mSlotSize ∧
      pending rb = (readSlot rb out).2.take rb.mSlotSize.toNat :: pending (readSlot rb out).1 := by
  refine ⟨readSlot_valid h out hne, rfl, ?_⟩
  rw [readSlot_delivered h]
  exact pending_readSlot h out hne

theorem transfer_queue {rb rb' : State} {c : Call} {o : Option (List Int)} (h : Valid rb)
    (hok : slotsOk rb.mSlotSize.toNat [c]) (ht : transfer rb c = some (rb', o)) :
    Valid rb' ∧ rb'.mSlotSize = rb.mSlotSize ∧
      pending rb ++ inserted rb.mSlotSize.toNat [c] = o.toList ++ pending rb' := by
  cases c with
  | insertBlocking S =>
    simp only [transfer, insertSlotBlocking] at ht
    split at ht
    · exact absurd ht (by simp)
    · rename_i hne
      simp only [Option.map_some', Option.some.injEq, Prod.mk.injEq] at ht
      obtain ⟨rfl, rfl⟩ := ht
      simpa [inserted] using insert_queue h S hok.1 hne
  | readBlocking out =>
    simp only [transfer, readSlotBlocking] at ht
    split at ht
    · exact absurd ht (by simp)
    · rename_i hne
      simp only [Option.map_some', Option.some.injEq, Prod.mk.injEq] at ht
      obtain ⟨rfl, rfl⟩ := ht
      simpa [inserted] using read_queue h out hne
  | insertNonBlocking S =>
    simp only [transfer, insertSlotNonBlocking] at ht
    split at ht
    · exact absurd ht (by simp)
    · rename_i hne
      simp only [if_neg hne, Option.some.injEq, Prod.mk.injEq] at ht
      obtain ⟨rfl, rfl⟩ := ht
      simpa [inserted] using insert_queue h S hok.1 hne
  | readNonBlocking out =>
    simp only [transfer, readSlotNonBlocking] at ht
    split at ht
    · exact absurd ht (by simp)
    · rename_i hne
      simp only [if_neg hne, Option.some.injEq, Prod.mk.injEq] at ht
      obtain ⟨rfl, rfl⟩ := ht
      simpa [inserted] using read_queue h out hne

theorem inserted_cons (s : Nat) (c : Call) (cs : List Call) :
    inserted s (c :: cs) = inserted s [c] ++ inserted s cs := by
  cases c <;> simp [inserted]

theorem slotsOk_cons (s : Nat) (c : Call) (cs : List Call) :
    slotsOk s (c :: cs) ↔ slotsOk s [c] ∧ slotsOk s cs := by
  cases c <;> simp [slotsOk]

/-- The queue refinement along a run of successful transfers: what was pending plus what
was inserted is what was delivered plus what is still pending, in this order. -/
theorem run_queue (calls : List Call) :
    ∀ (rb rb' : State) (outs : List (List Int)), Valid rb →
      slotsOk rb.mSlotSize.toNat calls → run rb calls = some (rb', outs) →
      Valid rb' ∧ rb'.mSlotSize = rb.mSlotSize ∧
        pending rb ++ inserted rb.mSlotSize.toNat calls = outs ++ pending rb' := by
  induction calls with
  | nil =>
    intro rb rb' outs h _ hrun
    simp only [run, Option.some.injEq, Prod.mk.injEq] at hrun
    obtain ⟨rfl, rfl⟩ := hrun
    exact ⟨h, rfl, by simp [inserted]⟩
  | cons c cs ih =>
    intro rb rb' outs h hok hrun
    rw [slotsOk_cons] at hok
    simp only [run] at hrun
    split at hrun
    · exact absurd hrun (by simp)
    · rename_i rb1 o ht
      split at hrun
      · exact absurd hrun (by simp)
      · rename_i rb2 outs2 hr2
        simp only [Option.some.injEq, Prod.mk.injEq] at hrun
        obtain ⟨rfl, rfl⟩ := hrun
        obtain ⟨hv1, hs1, hq1⟩ := transfer_queue h hok.1 ht
        obtain ⟨hv2, hs2, hq2⟩ := ih rb1 rb2 outs2 hv1 (by rw [hs1]; exact hok.2) hr2
        refine ⟨hv2, hs2.trans hs1, ?_⟩
        rw [inserted_cons, ← List.append_assoc, hq1, List.append_assoc, ← hs1, hq2,
          List.append_assoc]


theorem pending_nil {rb : State} (h : rb.mFullSlots = 0) : pending rb = [] := by
  apply List.eq_nil_of_length_eq_zero
  rw [pending_length, h]
  rfl

/-- Three inserts and three reads on an empty valid buffer of at least three slots. -/
theorem run_three {rb : State} (h : Valid rb) (hempty : rb.mFullSlots = 0)
    (h3 : 3 ≤ rb.mNumSlots) (S1 S2 S3 o1 o2 o3 : List Int)
    (hS1 : rb.mSlotSize.toNat ≤ S1.length) (hS2 : rb.mSlotSize.toNat ≤ S2.length)
    (hS3 : rb.mSlotSize.toNat ≤ S3.length) :
    (run rb [Call.insertBlocking S1, Call.insertBlocking S2, Call.insertBlocking S3,
        Call.readBlocking o1, Call.readBlocking o2, Call.readBlocking o3]).map Prod.snd =
      some [S1.take rb.mSlotSize.toNat, S2.take rb.mSlotSize.toNat,
        S3.take rb.mSlotSize.toNat] := by
  have e1 : ¬ rb.mFullSlots = rb.mNumSlots := by omega
  have e2 : ¬ (insertSlot rb S1).mFullSlots = (insertSlot rb S1).mNumSlots := by
    show ¬ rb.mFullSlots + 1 = rb.mNumSlots
    omega
  have e3 : ¬ (insertSlot (insertSlot rb S1) S2).mFullSlots
      = (insertSlot (insertSlot rb S1) S2).mNumSlots := by
    show ¬ rb.mFullSlots + 1 + 1 = rb.mNumSlots
    omega
  have e4 : ¬ (insertSlot (insertSlot (insertSlot rb S1) S2) S3).mFullSlots = 0 := by
    show ¬ rb.mFullSlots + 1 + 1 + 1 = 0
    omega
  have e5 : ¬ (readSlot (insertSlot (insertSlot (insertSlot rb S1) S2) S3) o1).1.mFullSlots
      = 0 := by
    show ¬ rb.mFullSlots + 1 + 1 + 1 - 1 = 0
    omega
  have e6 : ¬ (readSlot (readSlot (insertSlot (insertSlot (insertSlot rb S1) S2) S3)
      o1).1 o2).1.mFullSlots = 0 := by
    show ¬ rb.mFullSlots + 1 + 1 + 1 - 1 - 1 = 0
    omega
  have e7 : (readSlot (readSlot (readSlot (insertSlot (insertSlot (insertSlot rb S1) S2) S3)
      o1).1 o2).1 o3).1.mFullSlots = 0 := by
    show rb.mFullSlots + 1 + 1 + 1 - 1 - 1 - 1 = 0
    omega
  obtain ⟨outs, hrun⟩ : ∃ outs,
      run rb [Call.insertBlocking S1, Call.insertBlocking S2, Call.insertBlocking S3,
        Call.readBlocking o1, Call.readBlocking o2, Call.readBlocking o3] =
      some ((readSlot (readSlot (readSlot (insertSlot (insertSlot (insertSlot rb S1) S2) S3)
        o1).1 o2).1 o3).1, outs) := by
    simp only [run, transfer, insertSlotBlocking, readSlotBlocking, if_neg e1, if_neg e2,
      if_neg e3, if_neg e4, if_neg e5, if_neg e6, Option.map_some']
    exact ⟨_, rfl⟩
  obtain ⟨_, _, hq⟩ := run_queue _ rb _ outs h
    (by simp only [slotsOk]; exact ⟨hS1, hS2, hS3, trivial⟩) hrun
  rw [pending_nil hempty, pending_nil e7, List.nil_append, List.append_nil] at hq
  rw [hrun, Option.map_some', ← hq]
  simp only [inserted]

/-- C7 as stated fails: from the construction of a buffer of two one-byte slots the
first successful read returns the pre-seeded zero slot although the first successful
insert was `[5]`; and with eight slots, inserting `[1]`, `[2]`, `[3]` and reading three
times yields three zero slots.  And the order behind the pre-seeded slots is lost when an
`int` computation has wrapped: `RingBuffer(65537, 65537)` starts with the total size
131073 and the write position `-81921`, so its first insert copies to an address before
the storage; and in the reachable empty state `bigStale` of `RingBuffer(500000000, 4)`
the inserts copy from the write position `-1794967296` on while the reads copy from the
read position 500000000 on. -/
theorem fifo_counterexample :
    ((run (RingBuffer 1 2) [Call.insertBlocking [5], Call.readBlocking [9]]).map Prod.snd =
        some [[0]] ∧
      inserted 1 [Call.insertBlocking [5], Call.readBlocking [9]] = [[5]] ∧
      (run (RingBuffer 1 8) [Call.insertBlocking [1], Call.insertBlocking [2],
        Call.insertBlocking [3], Call.readBlocking [9], Call.readBlocking [9],
        Call.readBlocking [9]]).map Prod.snd = some [[0], [0], [0]]) ∧
    ((RingBuffer 65537 65537).mTotalSize = 131073 ∧
      (RingBuffer 65537 65537).mWritePosition = -81921 ∧
      (RingBuffer 65537 65537).mFullSlots < (RingBuffer 65537 65537).mNumSlots) ∧
    (Reachable 500000000 4 bigStale ∧ bigStale.mFullSlots = 0 ∧
      (3 : Int) ≤ bigStale.mNumSlots ∧
      bigStale.mWritePosition = -1794967296 ∧ bigStale.mReadPosition = 500000000) :=
  ⟨⟨by decide, by decide, by decide⟩, ⟨by decide, by decide, by decide⟩,
    ⟨reachable_bigStale, by decide, by decide, by decide, by decide⟩⟩

/-- C7, amended: transfers are FIFO behind the slots of silence queued by the constructor.
For a buffer whose storage size fits in an `int`, in every run of successful transfers
from construction (no wait, no resync) the slots delivered by the reads, followed by the
slots still pending, are the `NumSlots/2` zero slots followed by the inserted slots in
insertion order; so the `(NumSlots/2 + N)`-th successful read returns the `N`-th
successful insert.  And when no `int` computation wraps (`InRange`), from a reachable
empty state of a buffer of at least three slots, inserting S1, S2, S3 and then reading
three times completes and yields S1, S2, S3 in that order. -/
theorem fifo_delayed (SlotSize NumSlots : Int) (hs : 1 ≤ SlotSize) (hn : 1 ≤ NumSlots)
    (hfit : TotalFits SlotSize NumSlots) :
    (∀ (calls : List Call) (rb' : State) (outs : List (List Int)),
      slotsOk SlotSize.toNat calls →
      run (RingBuffer SlotSize NumSlots) calls = some (rb', outs) →
      outs ++ pending rb' =
        List.replicate (NumSlots / 2).toNat (silence SlotSize.toNat) ++
          inserted SlotSize.toNat calls ∧
      ∀ N : Nat, (NumSlots / 2).toNat + N < outs.length →
        outs[(NumSlots / 2).toNat + N]? = (inserted SlotSize.toNat calls)[N]?) ∧
    (∀ (rb : State) (S1 S2 S3 o1 o2 o3 : List Int), InRange SlotSize NumSlots →
      Reachable SlotSize NumSlots rb → rb.mFullSlots = 0 → 3 ≤ NumSlots →
      SlotSize.toNat ≤ S1.length → SlotSize.toNat ≤ S2.length →
      SlotSize.toNat ≤ S3.length →
      (run rb [Call.insertBlocking S1, Call.insertBlocking S2, Call.insertBlocking S3,
          Call.readBlocking o1, Call.readBlocking o2, Call.readBlocking o3]).map Prod.snd =
        some [S1.take SlotSize.toNat, S2.take SlotSize.toNat, S3.take SlotSize.toNat]) := by
  constructor
  · intro calls rb' outs hok hrun
    obtain ⟨_, _, hq⟩ := run_queue calls _ rb' outs (ctor_valid hs hn hfit) hok hrun
    rw [pending_ctor hs hn hfit] at hq
    have hq' : outs ++ pending rb' =
        List.replicate (NumSlots / 2).toNat (silence SlotSize.toNat) ++
          inserted SlotSize.toNat calls := hq.symm
    refine ⟨hq', ?_⟩
    intro N hN
    have h1 : (outs ++ pending rb')[(NumSlots / 2).toNat + N]?
        = outs[(NumSlots / 2).toNat + N]? := List.getElem?_append_left hN
    rw [← h1, hq', List.getElem?_append_right (by simp)]
    simp
  · intro rb S1 S2 S3 o1 o2 o3 hin hr hempty h3 hS1 hS2 hS3
    have hz := reachable_sizes hr
    have hv := reachable_valid hs hn hin hr
    rw [← hz.1] at hS1 hS2 hS3 ⊢
    exact run_three hv hempty (by rw [hz.2.1]; exact h3) S1 S2 S3 o1 o2 o3 hS1 hS2 hS3

/-- Witness of C7, amended: four slots of two bytes, two inserts and three reads from
construction; and three inserts and three reads from the empty state that two reads leave
behind in a buffer of four one-byte slots. -/
theorem fifo_delayed_witness :
    (1 : Int) ≤ 2 ∧ (1 : Int) ≤ 4 ∧ TotalFits 2 4 ∧
    run (RingBuffer 2 4) [Call.insertBlocking [1, 2], Call.readNonBlocking [],
      Call.insertNonBlocking [3, 4], Call.readBlocking [], Call.readBlocking []] =
      some (mk 2 4 3 1 [0, 0, 0, 0, 1, 2, 3, 4] [0, 0], [[0, 0], [0, 0], [1, 2]]) ∧
    [[0, 0], [0, 0], [1, 2]] ++ pending (mk 2 4 3 1 [0, 0, 0, 0, 1, 2, 3, 4] [0, 0]) =
      [[0, 0], [0, 0], [1, 2], [3, 4]] ∧
    ([[0, 0], [0, 0], [1, 2]] : List (List Int))[2 + 0]? = some [1, 2] ∧
    (readSlot (readSlot (RingBuffer 1 4) []).1 []).1.mFullSlots = 0 ∧
    (run (readSlot (readSlot (RingBuffer 1 4) []).1 []).1
      [Call.insertBlocking [1], Call.insertBlocking [2], Call.insertBlocking [3],
        Call.readBlocking [], Call.readBlocking [], Call.readBlocking []]).map Prod.snd =
      some [[1], [2], [3]] :=
  have hrun : run (RingBuffer 2 4) [Call.insertBlocking [1, 2], Call.readNonBlocking [],
      Call.insertNonBlocking [3, 4], Call.readBlocking [], Call.readBlocking []] =
      some (mk 2 4 3 1 [0, 0, 0, 0, 1, 2, 3, 4] [0, 0], [[0, 0], [0, 0], [1, 2]]) := by
    decide
  have hr : Reachable 1 4 (readSlot (readSlot (RingBuffer 1 4) []).1 []).1 :=
    Reachable.step
      (Reachable.step Reachable.init
        (Step.readBlocking (RingBuffer 1 4) [] (readSlot (RingBuffer 1 4) []).1
          (readSlot (RingBuffer 1 4) []).2 (by decide)))
      (Step.readBlocking (readSlot (RingBuffer 1 4) []).1 [] _
        (readSlot (readSlot (RingBuffer 1 4) []).1 []).2 (by decide))
  have h1 := (fifo_delayed 2 4 (by decide) (by decide) (by decide)).1 _ _ _ (by decide) hrun
  ⟨by decide, by decide, by decide, hrun, h1.1, h1.2 0 (by decide), by decide,
    (fifo_delayed 1 4 (by decide) (by decide) (by decide)).2 _ [1] [2] [3] [] [] []
      (by decide) hr (by decide) (by decide) (by decide) (by decide) (by decide)⟩

/-! ## The oldest pending slot -/

theorem map_replicate_none (k s : Nat) :
    (List.replicate k (none : Option (List Int))).map (entryBytes s) =
      List.replicate k (silence s) := by
  simp [entryBytes]

theorem tail_of_map_eq_cons {α β : Type} {f : α → β} {q : List α} {a : β} {p : List β}
    (h : List.map f q = a :: p) : p = List.map f q.tail := by
  cases q with
  | nil => exact absurd h (by simp)
  | cons e rest =>
    simp only [List.map_cons, List.cons.injEq] at h
    exact h.2.symm

/-- The history of a traced state describes its storage: the state is valid, has the
constructor's sizes, and its pending slots are the bytes of the entries of the history. -/
theorem traced_inv {SlotSize NumSlots : Int} (hs : 1 ≤ SlotSize) (hn : 1 ≤ NumSlots)
    (hfit : InRange SlotSize NumSlots)
    {rb : State} {q : List (Option (List Int))} (h : Traced SlotSize NumSlots rb q) :
    Valid rb ∧ (rb.mSlotSize = SlotSize ∧ rb.mNumSlots = NumSlots ∧
      rb.mTotalSize = SlotSize * NumSlots) ∧
      pending rb = q.map (entryBytes SlotSize.toNat) := by
  induction h with
  | init =>
    have hv := ctor_valid hs hn hfit.1
    exact ⟨hv, ⟨rfl, rfl, hv.2.2.1⟩, by rw [pending_ctor hs hn hfit.1, map_replicate_none]⟩
  | @insertBlocking rb rb' q S _ hS e ih =>
    obtain ⟨hv, hz, hp⟩ := ih
    unfold insertSlotBlocking at e
    split at e
    · exact absurd e (by simp)
    · rename_i hne
      cases e
      refine ⟨insertSlot_valid hv S hS hne, ⟨hz.1, hz.2.1, hz.2.2⟩, ?_⟩
      rw [pending_insertSlot hv S hS hne, hp, hz.1]
      simp [entryBytes]
  | @readBlocking rb rb' q out out' _ e ih =>
    obtain ⟨hv, hz, hp⟩ := ih
    unfold readSlotBlocking at e
    split at e
    · exact absurd e (by simp)
    · rename_i hne
      cases e
      refine ⟨readSlot_valid hv out hne, ⟨hz.1, hz.2.1, hz.2.2⟩, ?_⟩
      have h1 := pending_readSlot hv out hne
      rw [hp] at h1
      exact tail_of_map_eq_cons h1
  | @insertNonBlocking rb q S _ hS ih =>
    obtain ⟨hv, hz, hp⟩ := ih
    unfold insertSlotNonBlocking
    split
    · rename_i hfull
      have hfit' : InRange rb.mSlotSize rb.mNumSlots := by rw [hz.1, hz.2.1]; exact hfit
      refine ⟨overflowReset_valid hv hfit' hfull, ⟨hz.1, hz.2.1, hz.2.2⟩, ?_⟩
      rw [pending_overflowReset hv hfit' hfull, hp, hz.2.1, List.map_drop]
    · rename_i hne
      refine ⟨insertSlot_valid hv S hS hne, ⟨hz.1, hz.2.1, hz.2.2⟩, ?_⟩
      rw [pending_insertSlot hv S hS hne, hp, hz.1]
      simp [entryBytes]
  | @readNonBlocking rb q out _ ih =>
    obtain ⟨hv, hz, hp⟩ := ih
    unfold readSlotNonBlocking
    split
    · rename_i hempty
      have hfit' : InRange rb.mSlotSize rb.mNumSlots := by rw [hz.1, hz.2.1]; exact hfit
      refine ⟨underrunReset_valid hv hfit' hempty, ⟨hz.1, hz.2.1, hz.2.2⟩, ?_⟩
      rw [pending_underrunReset hv hfit' hempty, hz.1, hz.2.1, map_replicate_none]
    · rename_i hne
      refine ⟨readSlot_valid hv out hne, ⟨hz.1, hz.2.1, hz.2.2⟩, ?_⟩
      have h1 := pending_readSlot hv out hne
      rw [hp] at h1
      exact tail_of_map_eq_cons h1

/-- Every traced state is reachable. -/
theorem traced_reachable {SlotSize NumSlots : Int} {rb : State}
    {q : List (Option (List Int))} (h : Traced SlotSize NumSlots rb q) :
    Reachable SlotSize NumSlots rb := by
  induction h with
  | init => exact Reachable.init
  | insertBlocking S _ hS e ih => exact Reachable.step ih (Step.insertBlocking _ S _ hS e)
  | readBlocking out out' _ e ih => exact Reachable.step ih (Step.readBlocking _ out _ out' e)
  | insertNonBlocking S _ hS ih => exact Reachable.step ih (Step.insertNonBlocking _ S hS)
  | readNonBlocking out _ ih => exact Reachable.step ih (Step.readNonBlocking _ out)

/-- Every reachable state has a history. -/
theorem reachable_traced {SlotSize NumSlots : Int} {rb : State}
    (h : Reachable SlotSize NumSlots rb) : ∃ q, Traced SlotSize NumSlots rb q := by
  induction h with
  | init => exact ⟨_, Traced.init⟩
  | step _ st ih =>
    obtain ⟨q, hq⟩ := ih
    cases st with
    | insertBlocking S _ hS e => exact ⟨_, Traced.insertBlocking S hq hS e⟩
    | readBlocking out _ out' e => exact ⟨_, Traced.readBlocking out out' hq e⟩
    | insertNonBlocking S hS => exact ⟨_, Traced.insertNonBlocking S hq hS⟩
    | readNonBlocking out => exact ⟨_, Traced.readNonBlocking out hq⟩

/-- C9 as stated fails: in the state reached from `RingBuffer(1, 2)` by inserting the
slot `[7]`, one slot is full of silence and `[7]` is the earliest inserted slot not yet
read or discarded, yet `readSlotBlocking` delivers the zero byte of the silence.  And the
positions fail when an `int` sum has wrapped: in the reachable state `bigHalved` of
`RingBuffer(500000000, 4)`, which has two full slots, the read position is `-1794967296`,
before the storage, and `readSlotBlocking` sets it to `-1294967296`, while
`(mReadPosition + SlotSize) mod (SlotSize*NumSlots)` is 705032704. -/
theorem readSlotBlocking_counterexample :
    (Traced 1 2 (insertSlotNonBlocking (RingBuffer 1 2) [7]) [none, some [7]] ∧
      0 < (insertSlotNonBlocking (RingBuffer 1 2) [7]).mFullSlots ∧
      earliestInserted [none, some [7]] = some [7] ∧
      (readSlotBlocking (insertSlotNonBlocking (RingBuffer 1 2) [7]) [9]).map Prod.snd =
        some [0]) ∧
    (Reachable 500000000 4 bigHalved ∧ 0 < bigHalved.mFullSlots ∧
      bigHalved.mReadPosition = -1794967296 ∧
      (readSlotBlocking bigHalved []).map (fun p => p.1.mReadPosition) =
        some (-1294967296) ∧
      (bigHalved.mReadPosition + 500000000) % (500000000 * 4) = 705032704) :=
  ⟨⟨Traced.insertNonBlocking [7] Traced.init (by decide), by decide, by decide, by decide⟩,
    ⟨reachable_bigHalved, by decide, by decide, by decide, by decide⟩⟩

/-- C9, amended: when no `int` computation wraps (`InRange`), in every reachable state
with `mFullSlots > 0`, whatever its history `q` of pending slots (oldest first),
`readSlotBlocking(out)` completes and sets the first
`SlotSize` bytes of `out` to the bytes of the storage at the old read position, which are
the bytes of the oldest pending entry: zeros when that entry is a slot of silence queued
by the constructor or by an underrun resync, and otherwise an inserted slot, then the
earliest inserted slot not yet read or discarded.  The entry leaves the history, the read
position becomes `(mReadPosition + SlotSize) mod (SlotSize*NumSlots)` and `mFullSlots`
decreases by exactly one. -/
theorem readSlotBlocking_oldest (SlotSize NumSlots : Int) (hs : 1 ≤ SlotSize)
    (hn : 1 ≤ NumSlots) (hfit : InRange SlotSize NumSlots) (rb : State)
    (q : List (Option (List Int)))
    (h : Traced SlotSize NumSlots rb q) (hpos : 0 < rb.mFullSlots) (out : List Int) :
    ∃ e rest rb', q = e :: rest ∧
      readSlotBlocking rb out =
        some (rb', entryBytes SlotSize.toNat e ++ out.drop SlotSize.toNat) ∧
      entryBytes SlotSize.toNat e = slotAt rb rb.mReadPosition.toNat ∧
      (e = none → entryBytes SlotSize.toNat e = List.replicate SlotSize.toNat 0) ∧
      (∀ S, e = some S → earliestInserted q = some S) ∧
      Traced SlotSize NumSlots rb' rest ∧
      rb'.mReadPosition = (rb.mReadPosition + SlotSize) % (SlotSize * NumSlots) ∧
      rb'.mFullSlots = rb.mFullSlots - 1 := by
  obtain ⟨hv, hz, hp⟩ := traced_inv hs hn hfit h
  have hne : rb.mFullSlots ≠ 0 := by omega
  have hrd : readSlotBlocking rb out = some (readSlot rb out) := by
    unfold readSlotBlocking
    rw [if_neg hne]
  have h1 := pending_readSlot hv out hne
  rw [hp] at h1
  cases q with
  | nil => exact absurd h1 (by simp)
  | cons e rest =>
    simp only [List.map_cons, List.cons.injEq] at h1
    refine ⟨e, rest, (readSlot rb out).1, rfl, ?_, h1.1, ?_, ?_, ?_, ?_, rfl⟩
    · rw [hrd, h1.1, ← hz.1, ← readSlot_out]
    · intro he
      rw [he]
      rfl
    · intro S he
      rw [he]
      rfl
    · exact Traced.readBlocking out (readSlot rb out).2 h hrd
    · obtain ⟨_, hr0, _, hT⟩ := valid_write_bound hv
      have hr : 0 ≤ rb.mReadPosition := hv.2.2.2.1
      rw [← hz.2.2, ← hz.1]
      exact Int.tmod_eq_emod (Int.add_nonneg hr (by have := hv.1; omega)) (by omega)

/-- Witness of C9, amended: the state reached from `RingBuffer(1, 2)` by inserting `[7]`;
the read delivers the silence queued by the constructor. -/
theorem readSlotBlocking_oldest_witness :
    (1 : Int) ≤ 1 ∧ (1 : Int) ≤ 2 ∧ InRange 1 2 ∧
    Traced 1 2 (insertSlotNonBlocking (RingBuffer 1 2) [7]) [none, some [7]] ∧
    0 < (insertSlotNonBlocking (RingBuffer 1 2) [7]).mFullSlots ∧
    ∃ e rest rb', [none, some [7]] = e :: rest ∧
      readSlotBlocking (insertSlotNonBlocking (RingBuffer 1 2) [7]) [9] =
        some (rb', entryBytes 1 e ++ [])  :=
  have ht : Traced 1 2 (insertSlotNonBlocking (RingBuffer 1 2) [7]) [none, some [7]] :=
    Traced.insertNonBlocking [7] Traced.init (by decide)
  ⟨by decide, by decide, by decide, ht, by decide,
    (readSlotBlocking_oldest 1 2 (by decide) (by decide) (by decide) _ _ ht (by decide)
      [9]).elim
      fun e he => he.elim fun rest hr => hr.elim fun rb' hh => ⟨e, rest, rb', hh.1, hh.2.1⟩⟩


/-! ## The last read slot and the caller's buffer -/

theorem step_lastReadSlot {rb rb' : State} (st : Step rb rb') :
    rb'.mLastReadSlot = rb.mLastReadSlot := by
  cases st with
  | insertBlocking S _ hS e =>
    unfold insertSlotBlocking at e
    split at e
    · exact absurd e (by simp)
    · cases e
      rfl
  | readBlocking out _ out' e =>
    unfold readSlotBlocking at e
    split at e
    · exact absurd e (by simp)
    · cases e
      rfl
  | insertNonBlocking S hS =>
    unfold insertSlotNonBlocking
    split <;> rfl
  | readNonBlocking out =>
    unfold readSlotNonBlocking
    split <;> rfl

/-- C11 as stated fails: in a buffer of one one-byte slot, after inserting `[7]` the
blocking read delivers `[7]` to the caller while `mLastReadSlot` still holds the zero
byte of the constructor; the same holds for the non-blocking read. -/
theorem lastReadSlot_counterexample :
    (readSlotBlocking (insertSlotNonBlocking (RingBuffer 1 1) [7]) [9]).map
      (fun p => (p.2, p.1.mLastReadSlot)) = some ([7], [0]) ∧
    (readSlotNonBlocking (insertSlotNonBlocking (RingBuffer 1 1) [7]) [9]).2 = [7] ∧
    (readSlotNonBlocking (insertSlotNonBlocking (RingBuffer 1 1) [7]) [9]).1.mLastReadSlot =
      [0] :=
  ⟨by decide, by decide, by decide⟩

/-- C11, amended: no method writes `mLastReadSlot` after the constructor.  In every
reachable state it holds `SlotSize` zero bytes, and a successful read, blocking or
non-blocking, leaves it as it was; so after a successful read it equals the bytes
delivered to the caller only when the slot read is all zero. -/
theorem lastReadSlot_zero (SlotSize NumSlots : Int) (rb : State)
    (h : Reachable SlotSize NumSlots rb) :
    rb.mLastReadSlot = List.replicate SlotSize.toNat 0 ∧
    (∀ out : List Int, (readSlot rb out).1.mLastReadSlot = rb.mLastReadSlot) ∧
    (∀ out : List Int, (readSlotNonBlocking rb out).1.mLastReadSlot = rb.mLastReadSlot) ∧
    (∀ (out : List Int) (rb' : State) (out' : List Int),
      readSlotBlocking rb out = some (rb', out') →
      rb'.mLastReadSlot = List.replicate SlotSize.toNat 0) := by
  have hz : rb.mLastReadSlot = List.replicate SlotSize.toNat 0 := by
    induction h with
    | init => rfl
    | step _ st ih => rw [step_lastReadSlot st, ih]
  refine ⟨hz, fun _ => rfl, ?_, ?_⟩
  · intro out
    unfold readSlotNonBlocking
    split <;> rfl
  · intro out rb' out' e
    unfold readSlotBlocking at e
    split at e
    · exact absurd e (by simp)
    · cases e
      exact hz

/-- Witness of C11, amended: the state after an insert and a read in a buffer of one
two-byte slot. -/
theorem lastReadSlot_zero_witness :
    Reachable 2 1 (readSlot (insertSlot (RingBuffer 2 1) [7, 8]) []).1 ∧
    (readSlot (insertSlot (RingBuffer 2 1) [7, 8]) []).2 = [7, 8] ∧
    (readSlot (insertSlot (RingBuffer 2 1) [7, 8]) []).1.mLastReadSlot = [0, 0] :=
  have hr : Reachable 2 1 (readSlot (insertSlot (RingBuffer 2 1) [7, 8]) []).1 :=
    Reachable.step
      (Reachable.step Reachable.init
        (Step.insertBlocking (RingBuffer 2 1) [7, 8] (insertSlot (RingBuffer 2 1) [7, 8])
          (by decide) (by decide)))
      (Step.readBlocking (insertSlot (RingBuffer 2 1) [7, 8]) [] _
        (readSlot (insertSlot (RingBuffer 2 1) [7, 8]) []).2 (by decide))
  ⟨hr, by decide, (lastReadSlot_zero 2 1 _ hr).1⟩

/-- C12: on an empty buffer (`mFullSlots == 0`) `readSlotNonBlocking(out)` leaves every
byte of the caller's buffer `out` as it was (no new data, not even zeros) and leaves the
read position unchanged. -/
theorem readSlotNonBlocking_empty_frame (rb : State) (out : List Int)
    (hempty : rb.mFullSlots = 0) :
    (readSlotNonBlocking rb out).2 = out ∧
    (readSlotNonBlocking rb out).1.mReadPosition = rb.mReadPosition := by
  unfold readSlotNonBlocking
  rw [if_pos hempty]
  exact ⟨rfl, rfl⟩

/-- Witness of C12: an empty buffer of four one-byte slots with stale bytes. -/
theorem readSlotNonBlocking_empty_frame_witness :
    (mk 1 4 2 0 [1, 2, 3, 4] [0]).mFullSlots = 0 ∧
    (readSlotNonBlocking (mk 1 4 2 0 [1, 2, 3, 4] [0]) [9, 8]).2 = [9, 8] ∧
    (readSlotNonBlocking (mk 1 4 2 0 [1, 2, 3, 4] [0]) [9, 8]).1.mReadPosition = 2 :=
  have h := readSlotNonBlocking_empty_frame (mk 1 4 2 0 [1, 2, 3, 4] [0]) [9, 8] (by decide)
  ⟨by decide, h.1, h.2.trans (by decide)⟩


/-! ## Headroom after a resync -/

/-- C13 as stated fails for a buffer of one slot: `RingBuffer(1, 1)` is empty and stays
empty after the underrun resync of `readSlotNonBlocking`, and once `[7]` is inserted it
is full and stays full after the overflow resync of `insertSlotNonBlocking`.  And with
more slots the next transfer does not succeed when the `int` sum of the resync wraps: in
`RingBuffer(500000000, 4)` the overflow resync of the full state `bigFull` leaves the
read position at `-1794967296` and the underrun resync of the empty state `bigEmpty`
leaves the write position there, so the next read, or the next insert, copies outside the
storage. -/
theorem resync_headroom_counterexample :
    ((RingBuffer 1 1).mFullSlots = 0 ∧
      (readSlotNonBlocking (RingBuffer 1 1) [9]).1.mFullSlots = 0 ∧
      (insertSlot (RingBuffer 1 1) [7]).mFullSlots =
        (insertSlot (RingBuffer 1 1) [7]).mNumSlots ∧
      (insertSlotNonBlocking (insertSlot (RingBuffer 1 1) [7]) [8]).mFullSlots =
        (insertSlotNonBlocking (insertSlot (RingBuffer 1 1) [7]) [8]).mNumSlots) ∧
    (Reachable 500000000 4 bigFull ∧ bigFull.mFullSlots = bigFull.mNumSlots ∧
      (insertSlotNonBlocking bigFull bigSlot).mReadPosition = -1794967296 ∧
      Reachable 500000000 4 bigEmpty ∧ bigEmpty.mFullSlots = 0 ∧
      (readSlotNonBlocking bigEmpty []).1.mWritePosition = -1794967296) :=
  ⟨⟨by decide, by decide, by decide, by decide⟩,
    ⟨reachable_bigFull, by decide, by decide, reachable_bigEmpty, by decide, by decide⟩⟩

/-- C13, amended: in a valid state of a buffer of at least two slots in which no `int`
computation wraps (`InRange`), a resync restores headroom in both directions.  After
`insertSlotNonBlocking` on a full buffer and after `readSlotNonBlocking` on an empty
buffer the state is valid again and satisfies `0 < mFullSlots < mNumSlots`, so the next
non-blocking insert and the next non-blocking read transfer a slot, inside the storage,
without another resync. -/
theorem resync_headroom (rb : State) (S out : List Int) (hv : Valid rb)
    (hfit : InRange rb.mSlotSize rb.mNumSlots) (hn : 2 ≤ rb.mNumSlots) :
    (rb.mFullSlots = rb.mNumSlots →
      Valid (insertSlotNonBlocking rb S) ∧
      0 < (insertSlotNonBlocking rb S).mFullSlots ∧
      (insertSlotNonBlocking rb S).mFullSlots < (insertSlotNonBlocking rb S).mNumSlots ∧
      ∀ S' out' : List Int,
        insertSlotNonBlocking (insertSlotNonBlocking rb S) S' =
          insertSlot (insertSlotNonBlocking rb S) S' ∧
        readSlotNonBlocking (insertSlotNonBlocking rb S) out' =
          readSlot (insertSlotNonBlocking rb S) out') ∧
    (rb.mFullSlots = 0 →
      Valid (readSlotNonBlocking rb out).1 ∧
      0 < (readSlotNonBlocking rb out).1.mFullSlots ∧
      (readSlotNonBlocking rb out).1.mFullSlots < (readSlotNonBlocking rb out).1.mNumSlots ∧
      ∀ S' out' : List Int,
        insertSlotNonBlocking (readSlotNonBlocking rb out).1 S' =
          insertSlot (readSlotNonBlocking rb out).1 S' ∧
        readSlotNonBlocking (readSlotNonBlocking rb out).1 out' =
          readSlot (readSlotNonBlocking rb out).1 out') := by
  have hd : Int.tdiv rb.mNumSlots 2 = rb.mNumSlots / 2 := tdiv_half (by omega)
  constructor
  · intro hfull
    have e : insertSlotNonBlocking rb S = overflowReset rb := by
      unfold insertSlotNonBlocking
      rw [if_pos hfull]
    have h1 : (overflowReset rb).mFullSlots = rb.mNumSlots - rb.mNumSlots / 2 := by
      simp only [overflowReset, hfull, hd]
    have h2 : (overflowReset rb).mNumSlots = rb.mNumSlots := rfl
    rw [e]
    refine ⟨overflowReset_valid hv hfit hfull, by omega, by omega, ?_⟩
    intro S' out'
    constructor
    · unfold insertSlotNonBlocking
      rw [if_neg (by omega)]
    · unfold readSlotNonBlocking
      rw [if_neg (by omega)]
  · intro hempty
    have e : (readSlotNonBlocking rb out).1 = underrunReset rb := by
      unfold readSlotNonBlocking
      rw [if_pos hempty]
    have h1 : (underrunReset rb).mFullSlots = rb.mNumSlots / 2 := by
      simp only [underrunReset, hempty, hd, Int.zero_add]
    have h2 : (underrunReset rb).mNumSlots = rb.mNumSlots := rfl
    rw [e]
    refine ⟨underrunReset_valid hv hfit hempty, by omega, by omega, ?_⟩
    intro S' out'
    constructor
    · unfold insertSlotNonBlocking
      rw [if_neg (by omega)]
    · unfold readSlotNonBlocking
      rw [if_neg (by omega)]

/-- Witness of C13, amended: a full and an empty buffer of three one-byte slots. -/
theorem resync_headroom_witness :
    Valid (mk 1 3 1 3 [4, 5, 6] [0]) ∧ InRange 1 3 ∧
    (2 : Int) ≤ (mk 1 3 1 3 [4, 5, 6] [0]).mNumSlots ∧
    (mk 1 3 1 3 [4, 5, 6] [0]).mFullSlots = (mk 1 3 1 3 [4, 5, 6] [0]).mNumSlots ∧
    0 < (insertSlotNonBlocking (mk 1 3 1 3 [4, 5, 6] [0]) [7]).mFullSlots ∧
    (insertSlotNonBlocking (mk 1 3 1 3 [4, 5, 6] [0]) [7]).mFullSlots <
      (insertSlotNonBlocking (mk 1 3 1 3 [4, 5, 6] [0]) [7]).mNumSlots ∧
    Valid (mk 1 3 1 0 [4, 5, 6] [0]) ∧
    (mk 1 3 1 0 [4, 5, 6] [0]).mFullSlots = 0 ∧
    0 < (readSlotNonBlocking (mk 1 3 1 0 [4, 5, 6] [0]) []).1.mFullSlots ∧
    (readSlotNonBlocking (mk 1 3 1 0 [4, 5, 6] [0]) []).1.mFullSlots <
      (readSlotNonBlocking (mk 1 3 1 0 [4, 5, 6] [0]) []).1.mNumSlots :=
  have h := (resync_headroom (mk 1 3 1 3 [4, 5, 6] [0]) [7] [] (by decide) (by decide)
    (by decide)).1 (by decide)
  have h' := (resync_headroom (mk 1 3 1 0 [4, 5, 6] [0]) [7] [] (by decide) (by decide)
    (by decide)).2 (by decide)
  ⟨by decide, by decide, by decide, by decide, h.2.1, h.2.2.1, by decide, by decide,
    h'.2.1, h'.2.2.1⟩

/-! ## Slot alignment -/

/-- C14 as stated fails for large buffers: in `RingBuffer(500000000, 4)`, after the
underrun resync of `bigResynced`, the write position is `-1794967296`: negative, not a
multiple of the slot size and outside the storage; after the overflow resync of a
non-blocking insert into `bigFull`, in `bigHalved`, the read position is `-1794967296`
too. -/
theorem positions_counterexample :
    (1 : Int) ≤ 500000000 ∧ (1 : Int) ≤ 4 ∧ Reachable 500000000 4 bigResynced ∧
    bigResynced.mWritePosition = -1794967296 ∧
    bigResynced.mWritePosition < 0 ∧
    bigResynced.mWritePosition % 500000000 ≠ 0 ∧
    Reachable 500000000 4 bigHalved ∧
    bigHalved.mReadPosition = -1794967296 :=
  ⟨by decide, by decide, reachable_bigResynced, by decide, by decide, by decide,
    reachable_bigHalved, by decide⟩

/-- C14, amended: when no `int` computation wraps (`InRange`), in every reachable state of
a buffer with slot size and slot count at least one, the read and the write position are
multiples of `SlotSize` in `[0, SlotSize*NumSlots)`, so a slot that starts at either of
them stops within the total size, and every slot copy stays inside the
`SlotSize*NumSlots` bytes of the storage. -/
theorem positions_aligned (SlotSize NumSlots : Int) (hs : 1 ≤ SlotSize) (hn : 1 ≤ NumSlots)
    (hfit : InRange SlotSize NumSlots) (rb : State) (h : Reachable SlotSize NumSlots rb) :
    SlotSize ∣ rb.mReadPosition ∧ SlotSize ∣ rb.mWritePosition ∧
    0 ≤ rb.mReadPosition ∧ rb.mReadPosition < SlotSize * NumSlots ∧
    0 ≤ rb.mWritePosition ∧ rb.mWritePosition < SlotSize * NumSlots ∧
    rb.mReadPosition + SlotSize ≤ SlotSize * NumSlots ∧
    rb.mWritePosition + SlotSize ≤ SlotSize * NumSlots ∧
    rb.mRingBuffer.length = (SlotSize * NumSlots).toNat ∧
    rb.mReadPosition.toNat + SlotSize.toNat ≤ rb.mRingBuffer.length ∧
    rb.mWritePosition.toNat + SlotSize.toNat ≤ rb.mRingBuffer.length := by
  have hz := reachable_sizes h
  have hv := reachable_valid hs hn hfit h
  obtain ⟨hwb, hrb, _, _⟩ := valid_write_bound hv
  obtain ⟨s, n, r, f, hs', hn', hr, hf, hlen, e⟩ := hv.exists_mk
  rw [hz.1] at hwb hrb
  have hS : SlotSize = (s : Int) := by rw [← hz.1, e]; rfl
  have hN : NumSlots = (n : Int) := by rw [← hz.2.1, e]; rfl
  have hrp : rb.mReadPosition = ((r * s : Nat) : Int) := by rw [e]; rfl
  have hwp : rb.mWritePosition = (((r + f) % n * s : Nat) : Int) := by rw [e]; rfl
  have hw : (r + f) % n < n := Nat.mod_lt _ (by omega)
  have b1 : r * s + s ≤ s * n := slot_bound hr
  have b2 : (r + f) % n * s + s ≤ s * n := slot_bound hw
  have hT : SlotSize * NumSlots = ((s * n : Nat) : Int) := by rw [hS, hN]; push_cast; ring
  refine ⟨?_, ?_, ?_, ?_, ?_, ?_, ?_, ?_, ?_, hrb, hwb⟩
  · rw [hrp, hS]; exact ⟨(r : Int), by push_cast; ring⟩
  · rw [hwp, hS]; exact ⟨(((r + f) % n : Nat) : Int), by push_cast; ring⟩
  · rw [hrp]; exact Int.ofNat_nonneg _
  · rw [hrp, hT]; exact_mod_cast (by omega : r * s < s * n)
  · rw [hwp]; exact Int.ofNat_nonneg _
  · rw [hwp, hT]; exact_mod_cast (by omega : (r + f) % n * s < s * n)
  · rw [hrp, hT, hS]; exact_mod_cast b1
  · rw [hwp, hT, hS]; exact_mod_cast b2
  · rw [hlen, hT, Int.toNat_ofNat]

/-- Witness of C14, amended: three slots of two bytes after two inserts, the second one wrapping
the write position to zero. -/
theorem positions_aligned_witness :
    (1 : Int) ≤ 2 ∧ (1 : Int) ≤ 3 ∧ InRange 2 3 ∧
    Reachable 2 3 (insertSlotNonBlocking (insertSlotNonBlocking (RingBuffer 2 3) [1, 2]) [3, 4]) ∧
    (2 : Int) ∣
      (insertSlotNonBlocking (insertSlotNonBlocking (RingBuffer 2 3) [1, 2]) [3, 4]).mWritePosition ∧
    (insertSlotNonBlocking (insertSlotNonBlocking (RingBuffer 2 3) [1, 2])
      [3, 4]).mWritePosition + 2 ≤ 2 * 3 :=
  have hr : Reachable 2 3
      (insertSlotNonBlocking (insertSlotNonBlocking (RingBuffer 2 3) [1, 2]) [3, 4]) :=
    Reachable.step
      (Reachable.step Reachable.init (Step.insertNonBlocking _ [1, 2] (by decide)))
      (Step.insertNonBlocking _ [3, 4] (by decide))
  have h := positions_aligned 2 3 (by decide) (by decide) (by decide) _ hr
  ⟨by decide, by decide, by decide, hr, h.2.1, h.2.2.2.2.2.2.2.1⟩


/-! ## A blocked insert -/

theorem insertSlotBlocking_some {rb rb' : State} {S : List Int}
    (e : insertSlotBlocking rb S = some rb') :
    rb.mFullSlots ≠ rb.mNumSlots ∧ rb' = insertSlot rb S := by
  unfold insertSlotBlocking at e
  split at e
  · exact absurd e (by simp)
  · rename_i hne
    exact ⟨hne, (Option.some.inj e).symm⟩

/-- A read call on a non-empty buffer is a successful transfer that delivers a slot. -/
theorem transfer_read {rb : State} {c : Call} (hc : c.isRead = true)
    (hne : rb.mFullSlots ≠ 0) :
    ∃ rb1 x, transfer rb c = some (rb1, some x) ∧ rb1.mFullSlots = rb.mFullSlots - 1 ∧
      inserted rb.mSlotSize.toNat [c] = [] ∧ slotsOk rb.mSlotSize.toNat [c] := by
  cases c with
  | insertBlocking S => exact absurd hc (by simp [Call.isRead])
  | insertNonBlocking S => exact absurd hc (by simp [Call.isRead])
  | readBlocking out =>
    refine ⟨(readSlot rb out).1, (readSlot rb out).2.take rb.mSlotSize.toNat, ?_, rfl, rfl,
      trivial⟩
    simp only [transfer, readSlotBlocking, if_neg hne, Option.map_some']
  | readNonBlocking out =>
    refine ⟨(readSlot rb out).1, (readSlot rb out).2.take rb.mSlotSize.toNat, ?_, rfl, rfl,
      trivial⟩
    simp only [transfer, readSlotNonBlocking, if_neg hne]

/-- As many reads as there are pending slots, or fewer, all succeed and deliver the
pending slots from the front, in order. -/
theorem run_reads (calls : List Call) :
    ∀ rb : State, Valid rb → (∀ c ∈ calls, c.isRead = true) →
      calls.length ≤ rb.mFullSlots.toNat →
      ∃ rb', run rb calls = some (rb', (pending rb).take calls.length) := by
  induction calls with
  | nil =>
    intro rb _ _ _
    exact ⟨rb, by simp [run]⟩
  | cons c cs ih =>
    intro rb hv hall hlen
    have hne : rb.mFullSlots ≠ 0 := by
      intro h0
      rw [h0] at hlen
      simp at hlen
    obtain ⟨rb1, x, ht, hf1, hins, hok⟩ :=
      transfer_read (hall c (List.mem_cons_self c cs)) hne
    obtain ⟨hv1, _, hq⟩ := transfer_queue hv hok ht
    rw [hins, List.append_nil] at hq
    have hlen1 : cs.length ≤ rb1.mFullSlots.toNat := by
      rw [hf1]
      simp only [List.length_cons] at hlen
      omega
    obtain ⟨rb', hrun⟩ := ih rb1 hv1 (fun c' hc' => hall c' (List.mem_cons_of_mem c hc')) hlen1
    refine ⟨rb', ?_⟩
    simp only [run, ht, hrun, hq, Option.toList, List.length_cons, List.take_succ_cons,
      List.singleton_append, List.cons_append, List.nil_append]

/-- C16 as stated fails for large buffers: in the reachable full state `bigFull` of
`RingBuffer(500000000, 4)` the second half of the pending slots starts at offset
`(1500000000 + 2*500000000) mod 2000000000 = 500000000`, but the overflow resync forms
the `int` sum `1500000000 + 1000000000`, which wraps, and leaves the read position at
`-1794967296`, before the storage: the following reads do not copy those slots. -/
theorem overflow_counterexample :
    (1 : Int) ≤ 500000000 ∧ (1 : Int) ≤ 4 ∧ Reachable 500000000 4 bigFull ∧
    bigFull.mFullSlots = bigFull.mNumSlots ∧ bigFull.mReadPosition = 1500000000 ∧
    (insertSlotNonBlocking bigFull bigSlot).mReadPosition = -1794967296 ∧
    (bigFull.mReadPosition + 4 / 2 * 500000000) % (500000000 * 4) = 500000000 :=
  ⟨by decide, by decide, reachable_bigFull, by decide, by decide, by decide, by decide⟩

/-- C16, amended: when no `int` computation wraps (`InRange`), an overflow resync discards
exactly the oldest `NumSlots/2` pending slots and nothing else.  In every reachable full
state, whose `NumSlots` pending slots in read order are `q_1..q_N`, the resync of
`insertSlotNonBlocking` leaves the storage as it is and moves the read position to
`(mReadPosition + (NumSlots/2)*SlotSize) mod (SlotSize*NumSlots)`, inside the storage; the
pending slots then are `q_(N/2+1)..q_N` in this order, and the following `N - N/2` reads,
blocking or not, all succeed and return exactly those slots in this order. -/
theorem overflow_discards_oldest (SlotSize NumSlots : Int) (hs : 1 ≤ SlotSize)
    (hn : 1 ≤ NumSlots) (hfit : InRange SlotSize NumSlots) (rb : State)
    (h : Reachable SlotSize NumSlots rb)
    (hfull : rb.mFullSlots = rb.mNumSlots) (S : List Int) (reads : List Call)
    (hreads : ∀ c ∈ reads, c.isRead = true)
    (hlen : reads.length = (NumSlots - NumSlots / 2).toNat) :
    (pending rb).length = NumSlots.toNat ∧
    pending (insertSlotNonBlocking rb S) = (pending rb).drop (NumSlots / 2).toNat ∧
    (insertSlotNonBlocking rb S).mRingBuffer = rb.mRingBuffer ∧
    (insertSlotNonBlocking rb S).mReadPosition =
      (rb.mReadPosition + NumSlots / 2 * SlotSize) % (SlotSize * NumSlots) ∧
    Valid (insertSlotNonBlocking rb S) ∧
    ∃ rb', run (insertSlotNonBlocking rb S) reads =
      some (rb', (pending rb).drop (NumSlots / 2).toNat) := by
  have hz := reachable_sizes h
  have hv := reachable_valid hs hn hfit h
  have hfit' : InRange rb.mSlotSize rb.mNumSlots := by rw [hz.1, hz.2.1]; exact hfit
  have e : insertSlotNonBlocking rb S = overflowReset rb := by
    unfold insertSlotNonBlocking
    rw [if_pos hfull]
  have hp := pending_overflowReset hv hfit' hfull
  rw [hz.2.1] at hp
  have hv1 := overflowReset_valid hv hfit' hfull
  have hd : Int.tdiv rb.mNumSlots 2 = rb.mNumSlots / 2 := tdiv_half (by have := hv.2.1; omega)
  have hf1 : (overflowReset rb).mFullSlots = NumSlots - NumSlots / 2 := by
    rw [← hz.2.1]
    simp only [overflowReset, hfull, hd]
  have hl : (pending rb).length = NumSlots.toNat := by
    rw [pending_length, hfull, hz.2.1]
  have hb := (valid_write_bound hv).2.1
  have hlen' := hv.2.2.2.2.2.2.2.2.2
  have hrp : (overflowReset rb).mReadPosition =
      (rb.mReadPosition + NumSlots / 2 * SlotSize) % (SlotSize * NumSlots) := by
    have h0 : (overflowReset rb).mReadPosition =
        (rb.mReadPosition + rb.mNumSlots / 2 * rb.mSlotSize) % rb.mTotalSize :=
      reset_position hv hfit' rb.mReadPosition hv.2.2.2.1
        (by have := hv.1; rw [hlen'] at hb; omega)
    rw [h0, hv.2.2.1, hz.1, hz.2.1]
  rw [e]
  refine ⟨hl, hp, rfl, hrp, hv1, ?_⟩
  obtain ⟨rb', hrun⟩ := run_reads reads (overflowReset rb) hv1 hreads (by rw [hf1, hlen])
  refine ⟨rb', ?_⟩
  rw [hrun, hp, List.take_of_length_le]
  rw [List.length_drop, hl, hlen]
  omega

/-- Witness of C16, amended: four one-byte slots with the pending slots 0, 2, 3, 4; the
resync discards 0 and 2, the next two reads return 3 and 4. -/
theorem overflow_discards_oldest_witness :
    (1 : Int) ≤ 1 ∧ (1 : Int) ≤ 4 ∧ InRange 1 4 ∧
    Reachable 1 4
      (insertSlot (insertSlot (insertSlot (readSlot (RingBuffer 1 4) []).1 [2]) [3]) [4]) ∧
    pending
      (insertSlot (insertSlot (insertSlot (readSlot (RingBuffer 1 4) []).1 [2]) [3]) [4]) =
      [[0], [2], [3], [4]] ∧
    ∃ rb', run (insertSlotNonBlocking
        (insertSlot (insertSlot (insertSlot (readSlot (RingBuffer 1 4) []).1 [2]) [3]) [4])
        [5]) [Call.readBlocking [], Call.readNonBlocking []] = some (rb', [[3], [4]]) :=
  have h0 : Reachable 1 4 (readSlot (RingBuffer 1 4) []).1 :=
    Reachable.step Reachable.init
      (Step.readBlocking (RingBuffer 1 4) [] (readSlot (RingBuffer 1 4) []).1
        (readSlot (RingBuffer 1 4) []).2 (by decide))
  have h1 : Reachable 1 4 (insertSlot (readSlot (RingBuffer 1 4) []).1 [2]) :=
    Reachable.step h0 (Step.insertBlocking _ [2] _ (by decide) (by decide))
  have h2 : Reachable 1 4 (insertSlot (insertSlot (readSlot (RingBuffer 1 4) []).1 [2]) [3]) :=
    Reachable.step h1 (Step.insertBlocking _ [3] _ (by decide) (by decide))
  have h3 : Reachable 1 4
      (insertSlot (insertSlot (insertSlot (readSlot (RingBuffer 1 4) []).1 [2]) [3]) [4]) :=
    Reachable.step h2 (Step.insertBlocking _ [4] _ (by decide) (by decide))
  have h := overflow_discards_oldest 1 4 (by decide) (by decide) (by decide) _ h3
    (by decide) [5] [Call.readBlocking [], Call.readNonBlocking []] (by decide) (by decide)
  ⟨by decide, by decide, by decide, h3, by decide, h.2.2.2.2.2⟩


/-! ## The buffer as a queue -/

/-- C17 as stated fails for large buffers: the reachable state `bigResynced` of
`RingBuffer(500000000, 4)` has two full slots out of four, so an insert does not wait,
but its write position is `-1794967296` (the sum of the underrun resync has wrapped) and
not the end of the queue, offset `(1500000000 + 2*500000000) mod 2000000000 = 500000000`:
the insert copies S to an address before the storage and S is not appended to the
queue. -/
theorem delayed_fifo_counterexample :
    (1 : Int) ≤ 500000000 ∧ (1 : Int) ≤ 4 ∧ Reachable 500000000 4 bigResynced ∧
    bigResynced.mFullSlots < bigResynced.mNumSlots ∧
    bigResynced.mWritePosition = -1794967296 ∧
    (bigResynced.mReadPosition + bigResynced.mFullSlots * bigResynced.mSlotSize) %
      bigResynced.mTotalSize = 500000000 :=
  ⟨by decide, by decide, reachable_bigResynced, by decide, by decide, by decide⟩

/-- C17, amended: delayed FIFO.  When no `int` computation wraps (`InRange`), in every
reachable state with `k = mFullSlots < mNumSlots` an insert of S, blocking or
non-blocking, succeeds, copies S inside the storage to the end of the queue of pending
slots (the `mFullSlots` slots from the read position on) and so appends S to it; a
successful read removes the head of that queue and delivers it; and in every continuation
of successful inserts and reads without resync the `(k+1)`-th read returns exactly S. -/
theorem delayed_fifo (SlotSize NumSlots : Int) (hs : 1 ≤ SlotSize) (hn : 1 ≤ NumSlots)
    (hfit : InRange SlotSize NumSlots)
    (rb : State) (h : Reachable SlotSize NumSlots rb) (hlt : rb.mFullSlots < rb.mNumSlots)
    (S : List Int) (hS : SlotSize.toNat ≤ S.length) :
    insertSlotBlocking rb S = some (insertSlot rb S) ∧
    insertSlotNonBlocking rb S = insertSlot rb S ∧
    (0 ≤ rb.mWritePosition ∧
      rb.mWritePosition =
        (rb.mReadPosition + rb.mFullSlots * rb.mSlotSize) % rb.mTotalSize ∧
      rb.mWritePosition.toNat + SlotSize.toNat ≤ rb.mRingBuffer.length) ∧
    pending (insertSlot rb S) = pending rb ++ [S.take SlotSize.toNat] ∧
    (∀ out : List Int, 0 < rb.mFullSlots →
      readSlotBlocking rb out = some (readSlot rb out) ∧
      readSlotNonBlocking rb out = readSlot rb out ∧
      pending rb =
        (readSlot rb out).2.take SlotSize.toNat :: pending (readSlot rb out).1) ∧
    (∀ (calls : List Call) (rb' : State) (outs : List (List Int)),
      slotsOk SlotSize.toNat calls → run (insertSlot rb S) calls = some (rb', outs) →
      outs ++ pending rb' =
        pending rb ++ [S.take SlotSize.toNat] ++ inserted SlotSize.toNat calls ∧
      (rb.mFullSlots.toNat < outs.length →
        outs[rb.mFullSlots.toNat]? = some (S.take SlotSize.toNat))) := by
  have hz := reachable_sizes h
  have hv := reachable_valid hs hn hfit h
  have hne : rb.mFullSlots ≠ rb.mNumSlots := by omega
  rw [← hz.1] at hS ⊢
  have hp := pending_insertSlot hv S hS hne
  obtain ⟨hwb, _, hw0, _⟩ := valid_write_bound hv
  refine ⟨?_, ?_, ⟨hw0, hv.2.2.2.2.2.2.2.2.1, hwb⟩, hp, ?_, ?_⟩
  · unfold insertSlotBlocking
    rw [if_neg hne]
  · unfold insertSlotNonBlocking
    rw [if_neg hne]
  · intro out hpos
    have hne0 : rb.mFullSlots ≠ 0 := by omega
    refine ⟨?_, ?_, (read_queue hv out hne0).2.2⟩
    · unfold readSlotBlocking
      rw [if_neg hne0]
    · unfold readSlotNonBlocking
      rw [if_neg hne0]
  · intro calls rb' outs hok hrun
    obtain ⟨_, _, hq⟩ := run_queue calls (insertSlot rb S) rb' outs
      (insertSlot_valid hv S hS hne) hok hrun
    rw [hp] at hq
    have hq' : outs ++ pending rb' =
        pending rb ++ [S.take rb.mSlotSize.toNat] ++ inserted rb.mSlotSize.toNat calls :=
      hq.symm
    refine ⟨hq', ?_⟩
    intro hk
    have h1 : (outs ++ pending rb')[rb.mFullSlots.toNat]? = outs[rb.mFullSlots.toNat]? :=
      List.getElem?_append_left hk
    rw [← h1, hq', List.append_assoc,
      List.getElem?_append_right (by rw [pending_length])]
    simp [pending_length]

/-- Witness of C17, amended: three one-byte slots, one pending slot of silence; `[7]` is inserted
and comes back with the second read of the continuation. -/
theorem delayed_fifo_witness :
    (1 : Int) ≤ 1 ∧ (1 : Int) ≤ 3 ∧ InRange 1 3 ∧ Reachable 1 3 (RingBuffer 1 3) ∧
    (RingBuffer 1 3).mFullSlots < (RingBuffer 1 3).mNumSlots ∧
    run (insertSlot (RingBuffer 1 3) [7])
      [Call.readBlocking [], Call.insertNonBlocking [8], Call.readNonBlocking []] =
      some (mk 1 3 2 1 [0, 7, 8] [0], [[0], [7]]) ∧
    ([[0], [7]] : List (List Int))[(RingBuffer 1 3).mFullSlots.toNat]? = some [7] :=
  have hrun : run (insertSlot (RingBuffer 1 3) [7])
      [Call.readBlocking [], Call.insertNonBlocking [8], Call.readNonBlocking []] =
      some (mk 1 3 2 1 [0, 7, 8] [0], [[0], [7]]) := by decide
  have h := (delayed_fifo 1 3 (by decide) (by decide) (by decide) (RingBuffer 1 3)
    Reachable.init (by decide) [7] (by decide)).2.2.2.2.2 _ _ _ (by decide) hrun
  ⟨by decide, by decide, by decide, Reachable.init, by decide, hrun, h.2 (by decide)⟩

/-! ## Start-up silence -/

/-- C18 as stated fails for large sizes: for `RingBuffer(65537, 65537)` the `int` product
`mSlotSize*mNumSlots` wraps to 131073, so the storage has 131073 bytes, one less than two
slots, and the write position is `-81921`.  The first two reads do not wait, and the copy
of the second one, 65537 bytes from offset 65537, runs past the end of the storage: only
65536 of the bytes it delivers are storage bytes. -/
theorem startup_counterexample :
    (2 : Int) ≤ 65537 ∧
    (RingBuffer 65537 65537).mTotalSize = 131073 ∧
    (RingBuffer 65537 65537).mWritePosition = -81921 ∧
    readSlotBlocking (RingBuffer 65537 65537) [] =
      some (readSlot (RingBuffer 65537 65537) []) ∧
    readSlotBlocking (readSlot (RingBuffer 65537 65537) []).1 [] =
      some (readSlot (readSlot (RingBuffer 65537 65537) []).1 []) ∧
    (readSlot (RingBuffer 65537 65537) []).1.mReadPosition = 65537 ∧
    (readSlot (RingBuffer 65537 65537) []).1.mTotalSize <
      (readSlot (RingBuffer 65537 65537) []).1.mReadPosition +
        (readSlot (RingBuffer 65537 65537) []).1.mSlotSize ∧
    (readSlot (readSlot (RingBuffer 65537 65537) []).1 []).2.length = 65536 := by
  have e1 : ¬ (RingBuffer 65537 65537).mFullSlots = 0 := by decide
  have e2 : ¬ (readSlot (RingBuffer 65537 65537) []).1.mFullSlots = 0 := by decide
  have hp : (readSlot (RingBuffer 65537 65537) []).1.mReadPosition = 65537 := by decide
  have hs : (readSlot (RingBuffer 65537 65537) []).1.mSlotSize = 65537 := rfl
  have hb : (readSlot (RingBuffer 65537 65537) []).1.mRingBuffer =
      List.replicate 131073 0 := rfl
  refine ⟨by decide, by decide, by decide, ?_, ?_, hp, by decide, ?_⟩
  · unfold readSlotBlocking
    rw [if_neg e1]
  · unfold readSlotBlocking
    rw [if_neg e2]
  · rw [readSlot_out, hp, hs]
    simp only [slotAt, hb, hs, List.length_append, List.length_take, List.length_drop,
      List.length_replicate, List.length_nil]
    decide

/-- C18, amended: start-up silence.  From the freshly constructed state of a buffer of `N`
slots whose storage size fits in an `int`, in every sequence of successful inserts and
successful reads without resync, each of the first `N/2` successful reads returns a slot
of `SlotSize` zero bytes, whatever was inserted, and the `(N/2 + 1)`-th successful read
returns the first inserted slot. -/
theorem startup_silence (SlotSize NumSlots : Int) (hs : 1 ≤ SlotSize) (hn : 1 ≤ NumSlots)
    (hfit : TotalFits SlotSize NumSlots) (calls : List Call)
    (hok : slotsOk SlotSize.toNat calls) (rb' : State) (outs : List (List Int))
    (hrun : run (RingBuffer SlotSize NumSlots) calls = some (rb', outs)) :
    (∀ i : Nat, i < (NumSlots / 2).toNat → i < outs.length →
      outs[i]? = some (List.replicate SlotSize.toNat 0)) ∧
    ((NumSlots / 2).toNat < outs.length →
      ∃ S1, (inserted SlotSize.toNat calls).head? = some S1 ∧
        outs[(NumSlots / 2).toNat]? = some S1) := by
  obtain ⟨_, _, hq⟩ := run_queue calls _ rb' outs (ctor_valid hs hn hfit) hok hrun
  rw [pending_ctor hs hn hfit] at hq
  have hq' : outs ++ pending rb' =
      List.replicate (NumSlots / 2).toNat (silence SlotSize.toNat) ++
        inserted SlotSize.toNat calls := hq.symm
  constructor
  · intro i hi hlen
    have h1 : (outs ++ pending rb')[i]? = outs[i]? := List.getElem?_append_left hlen
    rw [← h1, hq', List.getElem?_append_left (by simpa using hi),
      List.getElem?_replicate, if_pos hi]
    rfl
  · intro hlen
    have h1 : (outs ++ pending rb')[(NumSlots / 2).toNat]? = outs[(NumSlots / 2).toNat]? :=
      List.getElem?_append_left hlen
    have h2 : outs[(NumSlots / 2).toNat]? = (inserted SlotSize.toNat calls)[0]? := by
      rw [← h1, hq', List.getElem?_append_right (by simp)]
      simp
    have h3 : outs[(NumSlots / 2).toNat]? = (inserted SlotSize.toNat calls).head? := by
      rw [h2, List.head?_eq_getElem?]
    obtain ⟨x, hx⟩ : ∃ x, outs[(NumSlots / 2).toNat]? = some x :=
      ⟨outs[(NumSlots / 2).toNat], List.getElem?_eq_getElem hlen⟩
    exact ⟨x, by rw [← h3, hx], hx⟩

/-- Witness of C18, amended: four slots of two bytes; the reads return two slots of zeros and
then the first inserted slot. -/
theorem startup_silence_witness :
    (1 : Int) ≤ 2 ∧ (1 : Int) ≤ 4 ∧ TotalFits 2 4 ∧
    run (RingBuffer 2 4) [Call.insertBlocking [1, 2], Call.readNonBlocking [],
      Call.insertNonBlocking [3, 4], Call.readBlocking [], Call.readBlocking []] =
      some (mk 2 4 3 1 [0, 0, 0, 0, 1, 2, 3, 4] [0, 0], [[0, 0], [0, 0], [1, 2]]) ∧
    ([[0, 0], [0, 0], [1, 2]] : List (List Int))[1]? = some [0, 0] ∧
    ∃ S1, (inserted 2 [Call.insertBlocking [1, 2], Call.readNonBlocking [],
        Call.insertNonBlocking [3, 4], Call.readBlocking [], Call.readBlocking []]).head? =
          some S1 ∧
      ([[0, 0], [0, 0], [1, 2]] : List (List Int))[2]? = some S1 :=
  have hrun : run (RingBuffer 2 4) [Call.insertBlocking [1, 2], Call.readNonBlocking [],
      Call.insertNonBlocking [3, 4], Call.readBlocking [], Call.readBlocking []] =
      some (mk 2 4 3 1 [0, 0, 0, 0, 1, 2, 3, 4] [0, 0], [[0, 0], [0, 0], [1, 2]]) := by
    decide
  have h := startup_silence 2 4 (by decide) (by decide) (by decide) _ (by decide) _ _ hrun
  ⟨by decide, by decide, by decide, hrun, h.1 1 (by decide) (by decide), h.2 (by decide)⟩


/-! ## Frame of the transfers -/

/-- C19 as stated fails for large buffers: in the reachable state `bigResynced` of
`RingBuffer(500000000, 4)` an insert does not wait (two full slots out of four), but the
write position is `-1794967296`: no byte of the 2000000000 bytes of storage starts at the
old write position, and the copy of the slot goes to addresses before the storage; and
after the overflow resync of `bigFull`, in `bigHalved`, the read position is
`-1794967296`, so the next read does not copy storage bytes either. -/
theorem transfer_frame_counterexample :
    (1 : Int) ≤ 500000000 ∧ (1 : Int) ≤ 4 ∧ Reachable 500000000 4 bigResynced ∧
    bigResynced.mFullSlots < bigResynced.mNumSlots ∧
    bigResynced.mTotalSize = 2000000000 ∧
    bigResynced.mWritePosition + bigResynced.mSlotSize < 0 ∧
    Reachable 500000000 4 bigHalved ∧
    0 < bigHalved.mFullSlots ∧
    bigHalved.mReadPosition + bigHalved.mSlotSize < 0 :=
  ⟨by decide, by decide, reachable_bigResynced, by decide, by decide, by decide,
    reachable_bigHalved, by decide, by decide⟩

/-- C19, amended: frame of the successful transfers.  When no `int` computation wraps
(`InRange`), in every reachable state a successful insert (`mFullSlots < mNumSlots`),
blocking or non-blocking, changes in the storage only the `SlotSize` bytes that start at
the old write position, which lie inside the storage and become the bytes of the slot,
and leaves the read position, the length of the storage and every other storage byte
unchanged; a successful read (`mFullSlots > 0`), blocking or non-blocking, copies from
inside the storage, leaves the storage and the write position unchanged and writes only
the first `SlotSize` bytes of the caller's buffer. -/
theorem transfer_frame (SlotSize NumSlots : Int) (hs : 1 ≤ SlotSize) (hn : 1 ≤ NumSlots)
    (hfit : InRange SlotSize NumSlots)
    (rb : State) (h : Reachable SlotSize NumSlots rb) (S out : List Int)
    (hS : SlotSize.toNat ≤ S.length) :
    (0 ≤ rb.mWritePosition ∧
      rb.mWritePosition.toNat + SlotSize.toNat ≤ rb.mRingBuffer.length ∧
      0 ≤ rb.mReadPosition ∧
      rb.mReadPosition.toNat + SlotSize.toNat ≤ rb.mRingBuffer.length) ∧
    (rb.mFullSlots < rb.mNumSlots →
      insertSlotBlocking rb S = some (insertSlot rb S) ∧
      insertSlotNonBlocking rb S = insertSlot rb S ∧
      (insertSlot rb S).mReadPosition = rb.mReadPosition ∧
      (insertSlot rb S).mLastReadSlot = rb.mLastReadSlot ∧
      (insertSlot rb S).mRingBuffer.length = rb.mRingBuffer.length ∧
      (∀ i : Nat, ¬ (rb.mWritePosition.toNat ≤ i ∧
          i < rb.mWritePosition.toNat + SlotSize.toNat) →
        (insertSlot rb S).mRingBuffer[i]? = rb.mRingBuffer[i]?) ∧
      (∀ j : Nat, j < SlotSize.toNat →
        (insertSlot rb S).mRingBuffer[rb.mWritePosition.toNat + j]? = S[j]?)) ∧
    (0 < rb.mFullSlots →
      readSlotBlocking rb out = some (readSlot rb out) ∧
      readSlotNonBlocking rb out = readSlot rb out ∧
      (readSlot rb out).1.mRingBuffer = rb.mRingBuffer ∧
      (readSlot rb out).1.mWritePosition = rb.mWritePosition ∧
      (readSlot rb out).1.mLastReadSlot = rb.mLastReadSlot ∧
      (readSlot rb out).2.take SlotSize.toNat = slotAt rb rb.mReadPosition.toNat ∧
      (readSlot rb out).2.drop SlotSize.toNat = out.drop SlotSize.toNat) := by
  have hz := reachable_sizes h
  have hv := reachable_valid hs hn hfit h
  obtain ⟨hwb, hrb, hw0, _⟩ := valid_write_bound hv
  rw [← hz.1] at hS ⊢
  refine ⟨⟨hw0, hwb, hv.2.2.2.1, hrb⟩, ?_, ?_⟩
  · intro hlt
    have hne : rb.mFullSlots ≠ rb.mNumSlots := by omega
    have hget : ∀ i : Nat, (insertSlot rb S).mRingBuffer[i]? =
        if rb.mWritePosition.toNat ≤ i ∧ i < rb.mWritePosition.toNat + rb.mSlotSize.toNat
        then S[0 + (i - rb.mWritePosition.toNat)]? else rb.mRingBuffer[i]? :=
      fun i => memcpy_getElem? _ _ _ _ _ i hwb (by simpa using hS)
    refine ⟨?_, ?_, rfl, rfl, memcpy_length _ _ _ _ _ hwb (by simpa using hS), ?_, ?_⟩
    · unfold insertSlotBlocking
      rw [if_neg hne]
    · unfold insertSlotNonBlocking
      rw [if_neg hne]
    · intro i hi
      rw [hget i, if_neg hi]
    · intro j hj
      rw [hget _, if_pos ⟨by omega, by omega⟩]
      congr 1
      omega
  · intro hpos
    have hne0 : rb.mFullSlots ≠ 0 := by omega
    refine ⟨?_, ?_, rfl, rfl, rfl, readSlot_delivered hv out, ?_⟩
    · unfold readSlotBlocking
      rw [if_neg hne0]
    · unfold readSlotNonBlocking
      rw [if_neg hne0]
    · rw [readSlot_out, List.drop_append_of_le_length (by rw [slotAt_read_length hv]),
        List.drop_of_length_le (by rw [slotAt_read_length hv]), List.nil_append]

/-- Witness of C19, amended: three slots of two bytes right after construction; the insert
writes bytes 2 and 3 of the storage, the read changes only the caller's first two bytes. -/
theorem transfer_frame_witness :
    (1 : Int) ≤ 2 ∧ (1 : Int) ≤ 3 ∧ InRange 2 3 ∧ Reachable 2 3 (RingBuffer 2 3) ∧
    (RingBuffer 2 3).mFullSlots < (RingBuffer 2 3).mNumSlots ∧
    0 < (RingBuffer 2 3).mFullSlots ∧
    (insertSlot (RingBuffer 2 3) [7, 8]).mRingBuffer = [0, 0, 7, 8, 0, 0] ∧
    (insertSlot (RingBuffer 2 3) [7, 8]).mRingBuffer[4]? = (RingBuffer 2 3).mRingBuffer[4]? ∧
    (readSlot (RingBuffer 2 3) [5, 6, 9]).1.mRingBuffer = (RingBuffer 2 3).mRingBuffer ∧
    (readSlot (RingBuffer 2 3) [5, 6, 9]).2 = [0, 0, 9] :=
  have h := transfer_frame 2 3 (by decide) (by decide) (by decide) (RingBuffer 2 3)
    Reachable.init [7, 8] [5, 6, 9] (by decide)
  ⟨by decide, by decide, by decide, Reachable.init, by decide, by decide, by decide,
    (h.2.1 (by decide)).2.2.2.2.2.1 4 (by decide), (h.2.2 (by decide)).2.2.1, by decide⟩

end RingBuffer
